import Mathlib

/-!
Verification of the `ip2d` IPv4/IPv6 address codec (`src/index.ts`).

The four exported operations `fromIPv4`, `toIPv4`, `fromIPv6`, `toIPv6` are
shallowly embedded below.  Strings are Lean `String`s; all character-level
work happens on `List Char`.  JavaScript 32-bit signed bitwise arithmetic
(`<<`, `|`, `>>`, `&`) is modelled on `Int` with explicit reduction modulo
2^32; JavaScript `BigInt` arithmetic on IPv6 values is modelled on `Nat`
(all reachable values are non-negative).  The external validity predicates
`isIPv4` / `isIPv6` imported from node's `net` module are not part of the
repository; they are modelled from the spec's description of their
contract (see their doc comments).
-/

namespace Ip2d

/-- Decimal digit character for a value in `[0, 9]`. -/
def digitChar : Nat → Char
  | 0 => '0' | 1 => '1' | 2 => '2' | 3 => '3' | 4 => '4'
  | 5 => '5' | 6 => '6' | 7 => '7' | 8 => '8' | _ => '9'

/-- Lowercase hexadecimal digit character for a value in `[0, 15]`,
as produced by JavaScript `Number.prototype.toString(16)`. -/
def hexDigitChar : Nat → Char
  | 0 => '0' | 1 => '1' | 2 => '2' | 3 => '3' | 4 => '4'
  | 5 => '5' | 6 => '6' | 7 => '7' | 8 => '8' | 9 => '9'
  | 10 => 'a' | 11 => 'b' | 12 => 'c' | 13 => 'd' | 14 => 'e' | _ => 'f'

/-- Value of a decimal digit character (0 for non-digits). -/
def decCharVal (c : Char) : Nat :=
  if c = '1' then 1 else if c = '2' then 2 else if c = '3' then 3
  else if c = '4' then 4 else if c = '5' then 5 else if c = '6' then 6
  else if c = '7' then 7 else if c = '8' then 8 else if c = '9' then 9
  else 0

/-- Value of a hexadecimal digit character, upper or lower case
(0 for non-digits), as accepted by JavaScript `parseInt(·, 16)`. -/
def hexCharVal (c : Char) : Nat :=
  if c = '1' then 1 else if c = '2' then 2 else if c = '3' then 3
  else if c = '4' then 4 else if c = '5' then 5 else if c = '6' then 6
  else if c = '7' then 7 else if c = '8' then 8 else if c = '9' then 9
  else if c = 'a' ∨ c = 'A' then 10 else if c = 'b' ∨ c = 'B' then 11
  else if c = 'c' ∨ c = 'C' then 12 else if c = 'd' ∨ c = 'D' then 13
  else if c = 'e' ∨ c = 'E' then 14 else if c = 'f' ∨ c = 'F' then 15
  else 0

/-- Decimal digit test. -/
def isDigitCh (c : Char) : Bool :=
  c = '0' ∨ c = '1' ∨ c = '2' ∨ c = '3' ∨ c = '4' ∨
  c = '5' ∨ c = '6' ∨ c = '7' ∨ c = '8' ∨ c = '9'

/-- Hexadecimal digit test (both cases). -/
def isHexDigitCh (c : Char) : Bool :=
  isDigitCh c ∨
  c = 'a' ∨ c = 'b' ∨ c = 'c' ∨ c = 'd' ∨ c = 'e' ∨ c = 'f' ∨
  c = 'A' ∨ c = 'B' ∨ c = 'C' ∨ c = 'D' ∨ c = 'E' ∨ c = 'F'

/-- Fueled base-10 rendering (fuel makes the recursion structural so that
concrete instances reduce in the kernel). -/
def natToDecAux : Nat → Nat → List Char
  | 0, _ => []
  | fuel + 1, n =>
    if n < 10 then [digitChar n]
    else natToDecAux fuel (n / 10) ++ [digitChar (n % 10)]

/-- Decimal rendering of a natural number, as JavaScript `String(n)`
produces for a non-negative integer: no leading zeros, `"0"` for zero. -/
def natToDec (n : Nat) : List Char := natToDecAux (n + 1) n

/-- Fueled base-16 rendering. -/
def natToHexAux : Nat → Nat → List Char
  | 0, _ => []
  | fuel + 1, n =>
    if n < 16 then [hexDigitChar n]
    else natToHexAux fuel (n / 16) ++ [hexDigitChar (n % 16)]

/-- Lowercase hexadecimal rendering of a natural number, as JavaScript
`n.toString(16)` produces for a non-negative BigInt: no leading zeros,
`"0"` for zero. -/
def natToHex (n : Nat) : List Char := natToHexAux (n + 1) n

/-- Numeric value of a decimal digit string (the behaviour of JavaScript
`Number(s)` on the all-digit strings reachable here). -/
def decVal (l : List Char) : Nat := l.foldl (fun a c => 10 * a + decCharVal c) 0

/-- Numeric value of a hexadecimal digit string. -/
def hexVal (l : List Char) : Nat := l.foldl (fun a c => 16 * a + hexCharVal c) 0

/-- JavaScript `parseInt(s, 16)` restricted to its behaviour on the strings
reachable here: it consumes the longest hex-digit prefix and returns its
value. -/
def jsParseIntHex (l : List Char) : Nat := hexVal (l.takeWhile isHexDigitCh)

/-- JavaScript `String.prototype.split` with a single-character separator:
`"a:b"` ↦ `["a", "b"]`, `""` ↦ `[""]`, adjacent separators produce empty
pieces. -/
def splitCh (c : Char) : List Char → List (List Char)
  | [] => [[]]
  | x :: xs =>
    if x = c then [] :: splitCh c xs
    else
      match splitCh c xs with
      | [] => [[x]]
      | h :: t => (x :: h) :: t

/-- JavaScript `Array.prototype.join` with a single-character separator. -/
def joinSep (c : Char) : List (List Char) → List Char
  | [] => []
  | [p] => p
  | p :: q :: ps => p ++ c :: joinSep c (q :: ps)

theorem joinSep_nil (c : Char) : joinSep c [] = [] := rfl

theorem joinSep_single (c : Char) (p : List Char) : joinSep c [p] = p := rfl

theorem joinSep_cons (c : Char) (p q : List Char) (ps : List (List Char)) :
    joinSep c (p :: q :: ps) = p ++ c :: joinSep c (q :: ps) := rfl

theorem splitCh_ne_nil (c : Char) (l : List Char) : splitCh c l ≠ [] := by
  cases l with
  | nil => simp [splitCh]
  | cons x xs =>
    simp only [splitCh]
    split
    · simp
    · split <;> simp

/-- Splitting never yields the empty list; expose the head/tail form. -/
theorem splitCh_exists_cons (c : Char) (l : List Char) :
    ∃ h t, splitCh c l = h :: t := by
  cases hs : splitCh c l with
  | nil => exact absurd hs (splitCh_ne_nil c l)
  | cons h t => exact ⟨h, t, rfl⟩

theorem splitCh_cons_sep (c : Char) (xs : List Char) :
    splitCh c (c :: xs) = [] :: splitCh c xs := by
  simp [splitCh]

theorem splitCh_cons_ne (c x : Char) (xs : List Char) (hx : x ≠ c) :
    splitCh c (x :: xs) =
      (x :: (splitCh c xs).headI) :: (splitCh c xs).tail := by
  obtain ⟨h, t, hs⟩ := splitCh_exists_cons c xs
  simp [splitCh, hx, hs]

theorem splitCh_append_not_mem (c : Char) (p l : List Char)
    (hp : ∀ x ∈ p, x ≠ c) :
    splitCh c (p ++ l) =
      (p ++ (splitCh c l).headI) :: (splitCh c l).tail := by
  induction p with
  | nil =>
    obtain ⟨h, t, hs⟩ := splitCh_exists_cons c l
    simp [hs]
  | cons x xs ih =>
    have hx : x ≠ c := hp x (by simp)
    have ih' := ih (fun y hy => hp y (by simp [hy]))
    obtain ⟨h, t, hs⟩ := splitCh_exists_cons c (xs ++ l)
    rw [List.cons_append, splitCh_cons_ne c x (xs ++ l) hx, ih']
    simp

/-- Splitting a joined list recovers the pieces, provided no piece contains
the separator. -/
theorem splitCh_joinSep (c : Char) (L : List (List Char)) (hne : L ≠ [])
    (hL : ∀ p ∈ L, ∀ x ∈ p, x ≠ c) :
    splitCh c (joinSep c L) = L := by
  induction L with
  | nil => exact absurd rfl hne
  | cons p ps ih =>
    cases ps with
    | nil =>
      have hp : ∀ x ∈ p, x ≠ c := hL p (by simp)
      have h1 : splitCh c (p ++ []) = (p ++ (splitCh c []).headI) :: (splitCh c []).tail :=
        splitCh_append_not_mem c p [] hp
      simpa [joinSep_single, splitCh] using h1
    | cons q qs =>
      have hp : ∀ x ∈ p, x ≠ c := hL p (by simp)
      have ih' : splitCh c (joinSep c (q :: qs)) = q :: qs :=
        ih (by simp) (fun r hr x hx => hL r (List.mem_cons_of_mem p hr) x hx)
      rw [joinSep_cons, splitCh_append_not_mem c p _ hp, splitCh_cons_sep, ih']
      simp

/-- Joining the pieces of a split recovers the original list. -/
theorem joinSep_splitCh (c : Char) (l : List Char) :
    joinSep c (splitCh c l) = l := by
  induction l with
  | nil => simp [splitCh, joinSep]
  | cons x xs ih =>
    by_cases hx : x = c
    · subst hx
      rw [splitCh_cons_sep]
      obtain ⟨h, t, hs⟩ := splitCh_exists_cons x xs
      rw [hs] at ih ⊢
      rw [joinSep_cons]
      simp [ih]
    · rw [splitCh_cons_ne c x xs hx]
      obtain ⟨h, t, hs⟩ := splitCh_exists_cons c xs
      rw [hs] at ih ⊢
      simp only [List.headI_cons, List.tail_cons]
      cases t with
      | nil => simpa [joinSep_single] using congrArg (x :: ·) ih
      | cons r rs =>
        rw [joinSep_cons] at ih ⊢
        simpa using congrArg (x :: ·) ih

/-- Pieces of a split never contain the separator. -/
theorem splitCh_pieces_not_mem (c : Char) (l : List Char) :
    ∀ p ∈ splitCh c l, ∀ x ∈ p, x ≠ c := by
  induction l with
  | nil => simp [splitCh]
  | cons y ys ih =>
    by_cases hy : y = c
    · subst hy
      rw [splitCh_cons_sep]
      intro p hp
      rcases List.mem_cons.mp hp with h | h
      · subst h; simp
      · exact ih p h
    · rw [splitCh_cons_ne c y ys hy]
      obtain ⟨h, t, hs⟩ := splitCh_exists_cons c ys
      rw [hs] at ih ⊢
      intro p hp
      rcases List.mem_cons.mp hp with hph | hph
      · subst hph
        intro x hx
        rcases List.mem_cons.mp hx with h1 | h1
        · subst h1; exact hy
        · exact ih h (by simp) x (by simpa using h1)
      · exact ih p (List.mem_cons_of_mem h hph)

/-! ### JavaScript 32-bit signed integer arithmetic -/

/-- The unsigned 32-bit residue of an integer. -/
def toUInt32n (a : Int) : Nat := (a % 4294967296).toNat

/-- Reinterpret an unsigned 32-bit value as a signed (two's complement)
32-bit integer, the value range of JavaScript bitwise operators. -/
def ofUInt32 (u : Nat) : Int :=
  if u < 2147483648 then (u : Int) else (u : Int) - 4294967296

/-- JavaScript `ToInt32`. -/
def toInt32 (a : Int) : Int := ofUInt32 (toUInt32n a)

/-- JavaScript `a << n` (32-bit, shift count taken mod 32). -/
def jsShl32 (a : Int) (n : Nat) : Int :=
  ofUInt32 (toUInt32n a * 2 ^ (n % 32) % 4294967296)

/-- JavaScript `a | b` (32-bit). -/
def jsOr32 (a b : Int) : Int := ofUInt32 (toUInt32n a ||| toUInt32n b)

/-- JavaScript `a & b` (32-bit). -/
def jsAnd32 (a b : Int) : Int := ofUInt32 (toUInt32n a &&& toUInt32n b)

/-- JavaScript `a >> n` (sign-propagating right shift: floor division of
the 32-bit signed value). -/
def jsShr32 (a : Int) (n : Nat) : Int := Int.fdiv (toInt32 a) (2 ^ (n % 32))

/-- JavaScript `String(z)` for an integer. -/
def intDec (z : Int) : List Char :=
  if z < 0 then '-' :: natToDec (-z).toNat else natToDec z.toNat

/-! ### The external validity predicates (modelled from the spec) -/

/-- One dot-separated component of a valid IPv4 address: a decimal octet. -/
def isOctet (p : List Char) : Bool :=
  decide (p ≠ []) && p.all isDigitCh && decide (decVal p ≤ 255) &&
  (decide (p = ['0']) || decide (p.headI ≠ '0'))

/-- Modelled from the spec: the external "valid IPv4 address" predicate
(`isIPv4` from node's `net` module, not part of this repository).
Spec §4.1: "four dot-separated decimal octets, each 0–255, no extraneous
characters", with leading-zero octets rejected (spec §4.1 format
guarantee: "canonical = no leading zeros … the predicate enforces this
already"). -/
def isIPv4 (s : String) : Bool :=
  decide ((splitCh '.' s.data).length = 4) && (splitCh '.' s.data).all isOctet

/-- One colon-separated hextet of a valid IPv6 address: 1–4 hex digits. -/
def isHextet (p : List Char) : Bool :=
  decide (1 ≤ p.length) && decide (p.length ≤ 4) && p.all isHexDigitCh

/-- Modelled from the spec: validity of the colon-split of an IPv6 address
string.  Spec §4.2: "8 colon-separated hextets, or fewer with one `::` run
standing in for one or more all-zero hextets; hextets are 1–4 hex digits".
In the split, a `::` abbreviation shows up as a run of empty pieces: one
empty piece for an interior `::`, two for a leading or trailing `::`, and
three for the bare string `"::"` (spec §9, abbreviation edge cases). -/
def isIPv6Parts (ps : List (List Char)) : Bool :=
  if ps.all (fun p => decide (p ≠ [])) then
    decide (ps.length = 8) && ps.all isHextet
  else
    let pre := ps.takeWhile (fun p => decide (p ≠ []))
    let rest := ps.dropWhile (fun p => decide (p ≠ []))
    let mid := rest.takeWhile (fun p => decide (p = []))
    let post := rest.dropWhile (fun p => decide (p = []))
    pre.all isHextet && post.all isHextet &&
    decide (pre.length + post.length ≤ 7) &&
    (if pre.length = 0 ∧ post.length = 0 then decide (mid.length = 3)
     else if pre.length = 0 ∨ post.length = 0 then decide (mid.length = 2)
     else decide (mid.length = 1))

/-- Modelled from the spec: the external "valid IPv6 address" predicate
(`isIPv6` from node's `net` module, not part of this repository), per the
grammar of spec §4.2.  Mixed IPv4-mapped textual shorthand is out of scope
(spec non-goals). -/
def isIPv6 (s : String) : Bool := isIPv6Parts (splitCh ':' s.data)

/-! ### The four codec operations of `src/index.ts` -/

/-- `fromIPv4` (src/index.ts:12-20): validate, split on `"."`, map
`Number`, reduce with `(a << 0x08) | b`.  A JS exception is modelled as
`Except.error` carrying the message. -/
def fromIPv4 (s : String) : Except String Int :=
  if isIPv4 s then
    match (splitCh '.' s.data).map (fun p => (decVal p : Int)) with
    | [] => Except.ok 0
    | x :: xs => Except.ok (xs.foldl (fun a b => jsOr32 (jsShl32 a 8) b) x)
  else Except.error "str should be a valid IPv4 address."

/-- `toIPv4` (src/index.ts:27-29): `[0x18, 0x10, 0x08, 0x00].map(a =>
(num >> a) & 0xFF).join(".")`. -/
def toIPv4 (num : Int) : String :=
  String.mk (joinSep '.'
    (([24, 16, 8, 0] : List Nat).map (fun a => intDec (jsAnd32 (jsShr32 num a) 255))))

/-- Value of one section in the IPv6 fold (src/index.ts:52):
`BigInt(parseInt(section || "0", 16))`; the empty string is falsy in JS. -/
def ipv6SegVal (p : List Char) : Nat :=
  jsParseIntHex (if p = [] then ['0'] else p)

/-- The abbreviation expansion of `fromIPv6` (src/index.ts:45-49):
`splice(indexOf(""), 1, ...Array(8 - sections.length + 1).fill("0"))`.
The zero count is computed in `Int` as JS does; for valid inputs it is
non-negative. -/
def expandSections (ps : List (List Char)) : List (List Char) :=
  if ps.any (fun p => decide (p = [])) then
    let i := ps.findIdx (fun p => decide (p = []))
    ps.take i ++ List.replicate ((8 - (ps.length : Int) + 1).toNat) ['0'] ++ ps.drop (i + 1)
  else ps

/-- The reduce of `fromIPv6` (src/index.ts:51-53):
`(acc << 16n) + BigInt(parseInt(section || "0", 16))`, on BigInt
(non-negative throughout, so modelled on `Nat`). -/
def ipv6Fold (ps : List (List Char)) : Nat :=
  ps.foldl (fun acc p => acc * 65536 + ipv6SegVal p) 0

/-- `fromIPv6` (src/index.ts:37-54). -/
def fromIPv6 (s : String) : Except String Nat :=
  if isIPv6 s then
    Except.ok (ipv6Fold (expandSections (splitCh ':' s.data)))
  else Except.error "str should be a valid IPv6 address."

/-- The section list built by `toIPv6`'s loop (src/index.ts:64-66):
`unshift(((num >> BigInt(i * 16)) & 0xFFFFn).toString(16))` for
`i = 0 … 7`, leaving the most significant hextet first. -/
def sections8 (num : Nat) : List (List Char) :=
  (List.range 8).foldl (fun acc i => natToHex ((num >>> (16 * i)) &&& 65535) :: acc) []

/-- Greedy-with-backtracking matcher for the tail `(:0)*(:|$)` of the
zero-run regex of src/index.ts:69, positioned right after the leading
`(^|:)0`.  Returns the remainder of the string after the match, `none` if
no match completes here. -/
def matchTail : List Char → Option (List Char)
  | [] => some []
  | c :: rest =>
    if c = ':' then
      match rest with
      | c2 :: rest2 =>
        if c2 = '0' then
          match matchTail rest2 with
          | some r => some r
          | none => some rest
        else some rest
      | [] => some rest
    else none

/-- Matcher for `0(:0)*(:|$)` immediately after a consumed `(^|:)`. -/
def matchZeroRun : List Char → Option (List Char)
  | [] => none
  | c :: rest => if c = '0' then matchTail rest else none

/-- Scan for the leftmost `:`-anchored match of the zero-run regex. -/
def goZR : List Char → List Char
  | [] => []
  | c :: rest =>
    if c = ':' then
      match matchZeroRun rest with
      | some r => ':' :: ':' :: r
      | none => c :: goZR rest
    else c :: goZR rest

/-- First `replace` of src/index.ts:69: replace the leftmost match of
`/(^|:)0(:0)*(:|$)/` with `"::"`. -/
def replaceZeroRun (l : List Char) : List Char :=
  match matchZeroRun l with
  | some r => ':' :: ':' :: r
  | none => goZR l

/-- Second `replace` of src/index.ts:69: collapse the leftmost run of 3+
consecutive colons (`/:{3,}/`, greedy) to `"::"`. -/
def collapse3 : List Char → List Char
  | [] => []
  | c :: rest =>
    if c = ':' ∧ 2 ≤ (rest.takeWhile (fun d => decide (d = ':'))).length then
      ':' :: ':' :: rest.drop (rest.takeWhile (fun d => decide (d = ':'))).length
    else c :: collapse3 rest

/-- `toIPv6` (src/index.ts:61-72). -/
def toIPv6 (num : Nat) : String :=
  String.mk (collapse3 (replaceZeroRun (joinSep ':' (sections8 num))))

/-! ### Decimal rendering: correctness -/

theorem natToDecAux_congr : ∀ f g n, n < f → n < g → natToDecAux f n = natToDecAux g n := by
  intro f
  induction f with
  | zero => intro g n hf; omega
  | succ f ih =>
    intro g n hf hg
    cases g with
    | zero => omega
    | succ g =>
      simp only [natToDecAux]
      by_cases h10 : n < 10
      · simp [h10]
      · have hd : n / 10 < n := Nat.div_lt_self (by omega) (by omega)
        rw [if_neg h10, if_neg h10, ih g (n / 10) (by omega) (by omega)]

/-- The recursive unfolding of `natToDec`. -/
theorem natToDec_eq (n : Nat) :
    natToDec n = if n < 10 then [digitChar n]
                 else natToDec (n / 10) ++ [digitChar (n % 10)] := by
  by_cases h10 : n < 10
  · simp [natToDec, natToDecAux, h10]
  · have hd : n / 10 < n := Nat.div_lt_self (by omega) (by omega)
    rw [if_neg h10]
    show natToDecAux (n + 1) n = _
    rw [show natToDecAux (n + 1) n =
          natToDecAux n (n / 10) ++ [digitChar (n % 10)] by
        simp [natToDecAux, h10]]
    rw [natToDecAux_congr n (n / 10 + 1) (n / 10) (by omega) (by omega)]
    rfl

theorem decCharVal_digitChar : ∀ n, n < 10 → decCharVal (digitChar n) = n := by decide

theorem isDigitCh_cases (c : Char) (hc : isDigitCh c = true) :
    c = '0' ∨ c = '1' ∨ c = '2' ∨ c = '3' ∨ c = '4' ∨
    c = '5' ∨ c = '6' ∨ c = '7' ∨ c = '8' ∨ c = '9' := by
  simpa [isDigitCh] using hc

theorem digit_roundtrip (c : Char) (hc : isDigitCh c = true) :
    decCharVal c < 10 ∧ digitChar (decCharVal c) = c := by
  rcases isDigitCh_cases c hc with h | h | h | h | h | h | h | h | h | h <;>
    subst h <;> exact ⟨by decide, by decide⟩

theorem decVal_cons (c : Char) (l : List Char) :
    decVal (c :: l) = decCharVal c * 10 ^ l.length + decVal l := by
  have key : ∀ (l : List Char) (a : Nat),
      l.foldl (fun a c => 10 * a + decCharVal c) a = a * 10 ^ l.length + decVal l := by
    intro l
    induction l with
    | nil => intro a; simp [decVal]
    | cons c l ih =>
      intro a
      show (l.foldl _ (10 * a + decCharVal c)) = _
      rw [ih (10 * a + decCharVal c)]
      have h2 : decVal (c :: l) = decCharVal c * 10 ^ l.length + decVal l := by
        show (l.foldl _ (10 * 0 + decCharVal c)) = _
        rw [ih (10 * 0 + decCharVal c)]
        ring
      rw [h2, List.length_cons]
      ring
  have h := key l (decCharVal c)
  show (l.foldl _ (10 * 0 + decCharVal c)) = _
  rw [show 10 * 0 + decCharVal c = decCharVal c by ring, h]

theorem decVal_append_singleton (l : List Char) (c : Char) :
    decVal (l ++ [c]) = 10 * decVal l + decCharVal c := by
  induction l with
  | nil => simp [decVal]
  | cons x xs ih =>
    rw [List.cons_append, decVal_cons, decVal_cons, ih]
    simp [List.length_append]
    ring

theorem decVal_natToDec (n : Nat) : decVal (natToDec n) = n := by
  induction n using Nat.strong_induction_on with
  | _ n ih =>
    rw [natToDec_eq]
    by_cases h10 : n < 10
    · simp only [if_pos h10]
      rw [show ([digitChar n] : List Char) = [] ++ [digitChar n] by simp,
        decVal_append_singleton]
      simp [decVal, decCharVal_digitChar n h10]
    · rw [if_neg h10, decVal_append_singleton,
        ih (n / 10) (Nat.div_lt_self (by omega) (by omega)),
        decCharVal_digitChar (n % 10) (by omega)]
      omega

theorem natToDec_ne_nil (n : Nat) : natToDec n ≠ [] := by
  rw [natToDec_eq]
  by_cases h10 : n < 10 <;> simp [h10]

theorem digitChar_isDigit : ∀ n, n < 10 → isDigitCh (digitChar n) = true := by decide

theorem natToDec_all_digits (n : Nat) : ∀ c ∈ natToDec n, isDigitCh c = true := by
  induction n using Nat.strong_induction_on with
  | _ n ih =>
    rw [natToDec_eq]
    by_cases h10 : n < 10
    · simp only [if_pos h10]
      intro c hc
      simp at hc
      subst hc
      exact digitChar_isDigit n h10
    · rw [if_neg h10]
      intro c hc
      rcases List.mem_append.mp hc with h | h
      · exact ih (n / 10) (Nat.div_lt_self (by omega) (by omega)) c h
      · simp at h
        subst h
        exact digitChar_isDigit (n % 10) (by omega)

theorem natToDec_headI_ne_zero (n : Nat) (hn : n ≠ 0) :
    (natToDec n).headI ≠ '0' := by
  induction n using Nat.strong_induction_on with
  | _ n ih =>
    rw [natToDec_eq]
    by_cases h10 : n < 10
    · simp only [if_pos h10, List.headI_cons]
      interval_cases n <;> simp_all <;> decide
    · rw [if_neg h10]
      obtain ⟨h, t, hs⟩ : ∃ h t, natToDec (n / 10) = h :: t := by
        cases hx : natToDec (n / 10) with
        | nil => exact absurd hx (natToDec_ne_nil _)
        | cons h t => exact ⟨h, t, rfl⟩
      rw [hs]
      have := ih (n / 10) (Nat.div_lt_self (by omega) (by omega)) (by omega)
      rw [hs] at this
      simpa using this

/-- A canonical decimal string (nonempty, digits, no leading zero) is the
rendering of its own value. -/
theorem natToDec_decVal (p : List Char) (hne : p ≠ [])
    (hdig : ∀ c ∈ p, isDigitCh c = true)
    (hcanon : p = ['0'] ∨ p.headI ≠ '0') :
    natToDec (decVal p) = p := by
  induction p using List.reverseRecOn with
  | nil => exact absurd rfl hne
  | append_singleton q c ihq =>
    have hc : isDigitCh c = true := hdig c (by simp)
    have hcv : decCharVal c < 10 ∧ digitChar (decCharVal c) = c :=
      digit_roundtrip c hc
    cases q with
    | nil =>
      show natToDec (decVal ([] ++ [c])) = [] ++ [c]
      rw [List.nil_append]
      rw [show decVal [c] = decCharVal c by simp [decVal]]
      rw [natToDec_eq, if_pos hcv.1, hcv.2]
    | cons x xs =>
      have hqne : x :: xs ≠ ([] : List Char) := by simp
      have hqdig : ∀ d ∈ x :: xs, isDigitCh d = true := by
        intro d hd
        exact hdig d (List.mem_append_left _ hd)
      have hx0 : x ≠ '0' := by
        rcases hcanon with h | h
        · have hl := congrArg List.length h
          simp [List.length_append] at hl
        · simpa using h
      have hq : natToDec (decVal (x :: xs)) = x :: xs :=
        ihq hqne hqdig (Or.inr (by simpa using hx0))
      have hxv : 1 ≤ decCharVal x := by
        have hx := hqdig x (by simp)
        rcases isDigitCh_cases x hx with h | h | h | h | h | h | h | h | h | h
        · exact absurd h hx0
        all_goals (subst h; decide)
      have hqpos : decVal (x :: xs) ≠ 0 := by
        rw [decVal_cons]
        have hp : 1 ≤ 10 ^ xs.length := Nat.one_le_pow _ _ (by omega)
        have := Nat.mul_le_mul hxv hp
        omega
      rw [decVal_append_singleton, natToDec_eq]
      rw [if_neg (by omega)]
      rw [Nat.mul_add_div (by omega), Nat.mul_add_mod]
      rw [Nat.div_eq_of_lt hcv.1, Nat.add_zero, hq,
        Nat.mod_eq_of_lt hcv.1, hcv.2]

/-! ### Hexadecimal rendering: correctness -/

theorem natToHexAux_congr : ∀ f g n, n < f → n < g → natToHexAux f n = natToHexAux g n := by
  intro f
  induction f with
  | zero => intro g n hf; omega
  | succ f ih =>
    intro g n hf hg
    cases g with
    | zero => omega
    | succ g =>
      simp only [natToHexAux]
      by_cases h16 : n < 16
      · simp [h16]
      · have hd : n / 16 < n := Nat.div_lt_self (by omega) (by omega)
        rw [if_neg h16, if_neg h16, ih g (n / 16) (by omega) (by omega)]

/-- The recursive unfolding of `natToHex`. -/
theorem natToHex_eq (n : Nat) :
    natToHex n = if n < 16 then [hexDigitChar n]
                 else natToHex (n / 16) ++ [hexDigitChar (n % 16)] := by
  by_cases h16 : n < 16
  · simp [natToHex, natToHexAux, h16]
  · have hd : n / 16 < n := Nat.div_lt_self (by omega) (by omega)
    rw [if_neg h16]
    show natToHexAux (n + 1) n = _
    rw [show natToHexAux (n + 1) n =
          natToHexAux n (n / 16) ++ [hexDigitChar (n % 16)] by
        simp [natToHexAux, h16]]
    rw [natToHexAux_congr n (n / 16 + 1) (n / 16) (by omega) (by omega)]
    rfl

theorem hexCharVal_hexDigitChar : ∀ n, n < 16 → hexCharVal (hexDigitChar n) = n := by decide

theorem isHexDigitCh_cases (c : Char) (hc : isHexDigitCh c = true) :
    c = '0' ∨ c = '1' ∨ c = '2' ∨ c = '3' ∨ c = '4' ∨
    c = '5' ∨ c = '6' ∨ c = '7' ∨ c = '8' ∨ c = '9' ∨
    c = 'a' ∨ c = 'b' ∨ c = 'c' ∨ c = 'd' ∨ c = 'e' ∨ c = 'f' ∨
    c = 'A' ∨ c = 'B' ∨ c = 'C' ∨ c = 'D' ∨ c = 'E' ∨ c = 'F' := by
  have h := hc
  simp only [isHexDigitCh, isDigitCh, Bool.or_eq_true, decide_eq_true_eq] at h
  tauto

theorem hexCharVal_le (c : Char) (hc : isHexDigitCh c = true) : hexCharVal c ≤ 15 := by
  rcases isHexDigitCh_cases c hc with
    h | h | h | h | h | h | h | h | h | h | h | h | h | h | h | h | h | h | h | h | h | h <;>
    (subst h; decide)

theorem hexVal_cons (c : Char) (l : List Char) :
    hexVal (c :: l) = hexCharVal c * 16 ^ l.length + hexVal l := by
  have key : ∀ (l : List Char) (a : Nat),
      l.foldl (fun a c => 16 * a + hexCharVal c) a = a * 16 ^ l.length + hexVal l := by
    intro l
    induction l with
    | nil => intro a; simp [hexVal]
    | cons c l ih =>
      intro a
      show (l.foldl _ (16 * a + hexCharVal c)) = _
      rw [ih (16 * a + hexCharVal c)]
      have h2 : hexVal (c :: l) = hexCharVal c * 16 ^ l.length + hexVal l := by
        show (l.foldl _ (16 * 0 + hexCharVal c)) = _
        rw [ih (16 * 0 + hexCharVal c)]
        ring
      rw [h2, List.length_cons]
      ring
  have h := key l (hexCharVal c)
  show (l.foldl _ (16 * 0 + hexCharVal c)) = _
  rw [show 16 * 0 + hexCharVal c = hexCharVal c by ring, h]

theorem hexVal_append_singleton (l : List Char) (c : Char) :
    hexVal (l ++ [c]) = 16 * hexVal l + hexCharVal c := by
  induction l with
  | nil => simp [hexVal]
  | cons x xs ih =>
    rw [List.cons_append, hexVal_cons, hexVal_cons, ih]
    simp [List.length_append]
    ring

theorem hexVal_natToHex (n : Nat) : hexVal (natToHex n) = n := by
  induction n using Nat.strong_induction_on with
  | _ n ih =>
    rw [natToHex_eq]
    by_cases h16 : n < 16
    · simp only [if_pos h16]
      rw [show ([hexDigitChar n] : List Char) = [] ++ [hexDigitChar n] by simp,
        hexVal_append_singleton]
      simp [hexVal, hexCharVal_hexDigitChar n h16]
    · rw [if_neg h16, hexVal_append_singleton,
        ih (n / 16) (Nat.div_lt_self (by omega) (by omega)),
        hexCharVal_hexDigitChar (n % 16) (by omega)]
      omega

theorem natToHex_ne_nil (n : Nat) : natToHex n ≠ [] := by
  rw [natToHex_eq]
  by_cases h16 : n < 16 <;> simp [h16]

theorem hexDigitChar_isHexDigit : ∀ n, n < 16 → isHexDigitCh (hexDigitChar n) = true := by
  decide

theorem natToHex_all_hexDigits (n : Nat) : ∀ c ∈ natToHex n, isHexDigitCh c = true := by
  induction n using Nat.strong_induction_on with
  | _ n ih =>
    rw [natToHex_eq]
    by_cases h16 : n < 16
    · simp only [if_pos h16]
      intro c hc
      simp at hc
      subst hc
      exact hexDigitChar_isHexDigit n h16
    · rw [if_neg h16]
      intro c hc
      rcases List.mem_append.mp hc with h | h
      · exact ih (n / 16) (Nat.div_lt_self (by omega) (by omega)) c h
      · simp at h
        subst h
        exact hexDigitChar_isHexDigit (n % 16) (by omega)

theorem isHexDigitCh_ne_colon (c : Char) (hc : isHexDigitCh c = true) : c ≠ ':' := by
  intro h
  subst h
  exact absurd hc (by decide)

theorem natToHex_headI_ne_zero (n : Nat) (hn : n ≠ 0) :
    (natToHex n).headI ≠ '0' := by
  induction n using Nat.strong_induction_on with
  | _ n ih =>
    rw [natToHex_eq]
    by_cases h16 : n < 16
    · simp only [if_pos h16, List.headI_cons]
      interval_cases n <;> simp_all <;> decide
    · rw [if_neg h16]
      obtain ⟨h, t, hs⟩ : ∃ h t, natToHex (n / 16) = h :: t := by
        cases hx : natToHex (n / 16) with
        | nil => exact absurd hx (natToHex_ne_nil _)
        | cons h t => exact ⟨h, t, rfl⟩
      rw [hs]
      have := ih (n / 16) (Nat.div_lt_self (by omega) (by omega)) (by omega)
      rw [hs] at this
      simpa using this

/-- The hex rendering of a value starting with `'0'` is the zero segment. -/
theorem natToHex_eq_zero_of_headI (n : Nat) (h : (natToHex n).headI = '0') :
    natToHex n = ['0'] := by
  rcases Nat.eq_zero_or_pos n with h0 | hp
  · subst h0; rfl
  · exact absurd h (natToHex_headI_ne_zero n (by omega))

theorem natToHex_length_le : ∀ k n, 1 ≤ k → n < 16 ^ k → (natToHex n).length ≤ k := by
  intro k
  induction k with
  | zero => omega
  | succ k ih =>
    intro n _ hn
    rw [natToHex_eq]
    by_cases h16 : n < 16
    · rw [if_pos h16]
      simp only [List.length_singleton]
      omega
    · rw [if_neg h16]
      have hk : 1 ≤ k := by
        by_contra hk0
        have hke : k = 0 := by omega
        subst hke
        rw [show (16 : Nat) ^ (0 + 1) = 16 by norm_num] at hn
        omega
      have hdiv : n / 16 < 16 ^ k := by
        rw [Nat.div_lt_iff_lt_mul (by omega)]
        calc n < 16 ^ (k + 1) := hn
        _ = 16 ^ k * 16 := by ring
      have := ih (n / 16) hk hdiv
      simp [List.length_append]
      omega

theorem hexVal_lt (l : List Char) (hl : ∀ c ∈ l, isHexDigitCh c = true) :
    hexVal l < 16 ^ l.length := by
  induction l with
  | nil => simp [hexVal]
  | cons c cs ih =>
    rw [hexVal_cons]
    have h1 : hexCharVal c ≤ 15 := hexCharVal_le c (hl c (by simp))
    have h2 : hexCharVal c * 16 ^ cs.length ≤ 15 * 16 ^ cs.length :=
      Nat.mul_le_mul_right _ h1
    have h3 := ih (fun d hd => hl d (by simp [hd]))
    rw [List.length_cons, pow_succ]
    omega

theorem takeWhile_eq_self_of_all {α : Type} (p : α → Bool) (l : List α)
    (h : ∀ a ∈ l, p a = true) : l.takeWhile p = l := by
  induction l with
  | nil => rfl
  | cons x xs ih =>
    rw [List.takeWhile_cons, if_pos (h x (by simp))]
    rw [ih (fun a ha => h a (by simp [ha]))]

/-- On an all-hex-digit string, `parseInt(·, 16)` is just the hex value. -/
theorem jsParseIntHex_of_all (l : List Char) (h : ∀ c ∈ l, isHexDigitCh c = true) :
    jsParseIntHex l = hexVal l := by
  unfold jsParseIntHex
  rw [takeWhile_eq_self_of_all _ _ h]

/-! ### 32-bit arithmetic lemmas -/

theorem toUInt32n_lt (a : Int) : toUInt32n a < 4294967296 := by
  unfold toUInt32n
  omega

theorem toUInt32n_ofUInt32 (u : Nat) (hu : u < 4294967296) :
    toUInt32n (ofUInt32 u) = u := by
  unfold toUInt32n ofUInt32
  split <;> omega

theorem ofUInt32_small (u : Nat) (hu : u < 2147483648) : ofUInt32 u = (u : Int) := by
  unfold ofUInt32
  rw [if_pos hu]

theorem ofUInt32_bounds (u : Nat) (hu : u < 4294967296) :
    -2147483648 ≤ ofUInt32 u ∧ ofUInt32 u < 2147483648 := by
  unfold ofUInt32
  split <;> omega

theorem ofUInt32_emod (u : Nat) (hu : u < 4294967296) :
    ofUInt32 u % 4294967296 = (u : Int) := by
  unfold ofUInt32
  split <;> omega

theorem toInt32_ofUInt32 (u : Nat) (hu : u < 4294967296) :
    toInt32 (ofUInt32 u) = ofUInt32 u := by
  unfold toInt32
  rw [toUInt32n_ofUInt32 u hu]

theorem toUInt32n_natCast (b : Nat) (hb : b < 4294967296) :
    toUInt32n (b : Int) = b := by
  unfold toUInt32n
  omega

/-- OR of a byte into a value whose low byte is clear is addition. -/
theorem lor_mul256_add (m b : Nat) (hb : b < 256) :
    (256 * m) ||| b = 256 * m + b := by
  have hb' : b < 2 ^ 8 := by rw [show (2 : Nat) ^ 8 = 256 by norm_num]; exact hb
  have h := Nat.mul_add_lt_is_or hb' m
  rw [show (256 : Nat) = 2 ^ 8 by norm_num]
  exact h.symm

/-- One step of the `fromIPv4` reduce on clean unsigned values. -/
theorem jsOrShl_step (u b : Nat) (hu : u < 4294967296) (hb : b < 256) :
    jsOr32 (jsShl32 (ofUInt32 u) 8) (b : Int) = ofUInt32 (u * 256 % 4294967296 + b) := by
  unfold jsOr32 jsShl32
  rw [toUInt32n_ofUInt32 u hu]
  rw [show (8 : Nat) % 32 = 8 from rfl, show (2 : Nat) ^ 8 = 256 from rfl]
  rw [toUInt32n_ofUInt32 (u * 256 % 4294967296) (Nat.mod_lt _ (by omega))]
  rw [toUInt32n_natCast b (by omega)]
  have hmod : u * 256 % 4294967296 = 256 * (u % 16777216) := by
    rw [Nat.mul_comm u 256, show (4294967296 : Nat) = 256 * 16777216 by norm_num,
      Nat.mul_mod_mul_left]
  rw [hmod, lor_mul256_add _ _ hb]

/-- JS byte extraction `(num >> sh) & 0xFF` on a 32-bit value, for the
shift amounts used by `toIPv4`. -/
theorem byte_extract (u : Nat) (sh : Nat) (hu : u < 4294967296)
    (hsh : sh = 0 ∨ sh = 8 ∨ sh = 16 ∨ sh = 24) :
    jsAnd32 (jsShr32 (ofUInt32 u) sh) 255 = ((u / 2 ^ sh % 256 : Nat) : Int) := by
  unfold jsAnd32 jsShr32
  rw [toInt32_ofUInt32 u hu]
  have hpos : (0 : Int) ≤ 2 ^ (sh % 32) := by positivity
  rw [Int.fdiv_eq_ediv _ hpos]
  have h255 : toUInt32n 255 = 255 := rfl
  rw [h255]
  have hmask : ∀ x : Nat, x &&& 255 = x % 256 := by
    intro x
    have := Nat.and_pow_two_sub_one_eq_mod x 8
    norm_num at this
    exact this
  rw [hmask]
  have hsmall : toUInt32n (ofUInt32 u / 2 ^ (sh % 32)) % 256 = u / 2 ^ sh % 256 := by
    unfold toUInt32n ofUInt32
    rcases hsh with h | h | h | h <;> subst h <;> (norm_num; split <;> omega)
  rw [hsmall, ofUInt32_small _ (by omega)]

/-! ### IPv4: structure of valid inputs and evaluation lemmas -/

theorem length_eq_four {α : Type} (ps : List α) (h : ps.length = 4) :
    ∃ a b c d, ps = [a, b, c, d] := by
  match ps, h with
  | [a, b, c, d], _ => exact ⟨a, b, c, d, rfl⟩

theorem isOctet_unpack (p : List Char) (h : isOctet p = true) :
    p ≠ [] ∧ (∀ c ∈ p, isDigitCh c = true) ∧ decVal p ≤ 255 ∧
      (p = ['0'] ∨ p.headI ≠ '0') := by
  simp only [isOctet, Bool.and_eq_true, Bool.or_eq_true, decide_eq_true_eq,
    List.all_eq_true] at h
  tauto

theorem isIPv4_unpack (s : String) (h : isIPv4 s = true) :
    ∃ p0 p1 p2 p3, splitCh '.' s.data = [p0, p1, p2, p3] ∧
      isOctet p0 = true ∧ isOctet p1 = true ∧ isOctet p2 = true ∧ isOctet p3 = true := by
  simp only [isIPv4, Bool.and_eq_true, decide_eq_true_eq, List.all_eq_true] at h
  obtain ⟨p0, p1, p2, p3, hs⟩ := length_eq_four _ h.1
  refine ⟨p0, p1, p2, p3, hs, ?_, ?_, ?_, ?_⟩ <;>
    (apply h.2; rw [hs]; simp)

/-- The big-endian packed value of the split octets, as the spec describes
it (fold left-to-right over exact unsigned arithmetic). -/
def ipv4Nat (s : String) : Nat :=
  (splitCh '.' s.data).foldl (fun a p => 256 * a + decVal p) 0

theorem pack4 (o0 o1 o2 o3 : Nat) (h0 : o0 < 256) (h1 : o1 < 256)
    (h2 : o2 < 256) (h3 : o3 < 256) :
    ([(o1 : Int), (o2 : Int), (o3 : Int)]).foldl
        (fun a b => jsOr32 (jsShl32 a 8) b) (o0 : Int) =
      ofUInt32 (((o0 * 256 + o1) * 256 + o2) * 256 + o3) := by
  have e0 : (o0 : Int) = ofUInt32 o0 := (ofUInt32_small o0 (by omega)).symm
  simp only [List.foldl]
  rw [e0]
  rw [jsOrShl_step o0 o1 (by omega) h1,
    Nat.mod_eq_of_lt (show o0 * 256 < 4294967296 by omega)]
  rw [jsOrShl_step _ o2 (by omega) h2,
    Nat.mod_eq_of_lt (show (o0 * 256 + o1) * 256 < 4294967296 by omega)]
  rw [jsOrShl_step _ o3 (by omega) h3,
    Nat.mod_eq_of_lt (show ((o0 * 256 + o1) * 256 + o2) * 256 < 4294967296 by omega)]

theorem fromIPv4_of_valid (s : String) (h : isIPv4 s = true)
    (p0 p1 p2 p3 : List Char) (hs : splitCh '.' s.data = [p0, p1, p2, p3])
    (h0 : decVal p0 ≤ 255) (h1 : decVal p1 ≤ 255)
    (h2 : decVal p2 ≤ 255) (h3 : decVal p3 ≤ 255) :
    fromIPv4 s = Except.ok (ofUInt32
      (((decVal p0 * 256 + decVal p1) * 256 + decVal p2) * 256 + decVal p3)) := by
  unfold fromIPv4
  rw [if_pos h, hs]
  simp only [List.map]
  rw [pack4 (decVal p0) (decVal p1) (decVal p2) (decVal p3)
    (by omega) (by omega) (by omega) (by omega)]

theorem intDec_natCast (n : Nat) : intDec (n : Int) = natToDec n := by
  unfold intDec
  rw [if_neg (by omega)]
  norm_num

theorem toIPv4_ofUInt32 (u : Nat) (hu : u < 4294967296) :
    toIPv4 (ofUInt32 u) = String.mk (joinSep '.'
      [natToDec (u / 2 ^ 24 % 256), natToDec (u / 2 ^ 16 % 256),
       natToDec (u / 2 ^ 8 % 256), natToDec (u / 2 ^ 0 % 256)]) := by
  unfold toIPv4
  simp only [List.map]
  rw [byte_extract u 24 hu (by tauto), byte_extract u 16 hu (by tauto),
    byte_extract u 8 hu (by tauto), byte_extract u 0 hu (by tauto)]
  rw [intDec_natCast, intDec_natCast, intDec_natCast, intDec_natCast]

theorem isDigitCh_ne_dot (c : Char) (hc : isDigitCh c = true) : c ≠ '.' := by
  intro h
  subst h
  exact absurd hc (by decide)

theorem String_mk_data (s : String) : String.mk s.data = s := rfl

theorem toIPv4_congr (a b : Int) (h : toUInt32n a = toUInt32n b) :
    toIPv4 a = toIPv4 b := by
  unfold toIPv4 jsShr32 toInt32
  rw [h]

theorem isOctet_natToDec (n : Nat) (hn : n ≤ 255) : isOctet (natToDec n) = true := by
  simp only [isOctet, Bool.and_eq_true, Bool.or_eq_true, decide_eq_true_eq,
    List.all_eq_true]
  refine ⟨⟨⟨natToDec_ne_nil n, natToDec_all_digits n⟩, by rw [decVal_natToDec]; exact hn⟩, ?_⟩
  rcases Nat.eq_zero_or_pos n with h0 | hp
  · subst h0; left; rfl
  · right; exact natToDec_headI_ne_zero n (by omega)

theorem natToDec_not_dot (n : Nat) : ∀ c ∈ natToDec n, c ≠ '.' :=
  fun c hc => isDigitCh_ne_dot c (natToDec_all_digits n c hc)

theorem splitCh_toIPv4 (v : Int) :
    splitCh '.' (toIPv4 v).data =
      [natToDec (toUInt32n (jsShr32 v 24) % 256),
       natToDec (toUInt32n (jsShr32 v 16) % 256),
       natToDec (toUInt32n (jsShr32 v 8) % 256),
       natToDec (toUInt32n (jsShr32 v 0) % 256)] := by
  have hand : ∀ a : Int, jsAnd32 a 255 = ((toUInt32n a % 256 : Nat) : Int) := by
    intro a
    unfold jsAnd32
    rw [show toUInt32n 255 = 255 from rfl]
    have hmask := Nat.and_pow_two_sub_one_eq_mod (toUInt32n a) 8
    norm_num at hmask
    rw [hmask, ofUInt32_small _ (by omega)]
  unfold toIPv4
  simp only [List.map]
  rw [hand, hand, hand, hand, intDec_natCast, intDec_natCast, intDec_natCast,
    intDec_natCast]
  apply splitCh_joinSep
  · simp
  · intro p hp
    simp at hp
    rcases hp with h | h | h | h <;> (subst h; exact natToDec_not_dot _)

/-- C7: `fromIPv4` packs the octets big-endian; the first textual octet is
the most significant byte: `fromIPv4 "1.2.3.4" = 0x01020304`. -/
theorem claim_C7_byte_order : fromIPv4 "1.2.3.4" = Except.ok 16909060 := rfl

/-- C1 counterexample: on the valid address `"128.0.0.0"` the code returns
`-2147483648`, which is not in `[0, 2^32 - 1]`: JavaScript `<<`/`|` work on
signed 32-bit integers, so any address with the top bit set comes out
negative. -/
theorem claim_C1_counterexample :
    isIPv4 "128.0.0.0" = true ∧
    fromIPv4 "128.0.0.0" = Except.ok (-2147483648) ∧
    ¬(0 ≤ (-2147483648 : Int) ∧ (-2147483648 : Int) ≤ 2 ^ 32 - 1) := by
  refine ⟨rfl, rfl, ?_⟩
  decide

/-- C1 (amended): for every string accepted by the IPv4 validity
predicate, `fromIPv4` returns the *signed* 32-bit reinterpretation of the
big-endian packed octets: a value in `[-2^31, 2^31 - 1]` congruent to the
exact unsigned packed value modulo `2^32`. -/
theorem claim_C1_amended (s : String) (v : Int) (h : isIPv4 s = true)
    (hv : fromIPv4 s = Except.ok v) :
    -2147483648 ≤ v ∧ v < 2147483648 ∧ v % 4294967296 = (ipv4Nat s : Int) := by
  obtain ⟨p0, p1, p2, p3, hs, ho0, ho1, ho2, ho3⟩ := isIPv4_unpack s h
  have h0 := (isOctet_unpack p0 ho0).2.2.1
  have h1 := (isOctet_unpack p1 ho1).2.2.1
  have h2 := (isOctet_unpack p2 ho2).2.2.1
  have h3 := (isOctet_unpack p3 ho3).2.2.1
  rw [fromIPv4_of_valid s h p0 p1 p2 p3 hs h0 h1 h2 h3] at hv
  injection hv with hveq
  subst hveq
  set u : Nat := ((decVal p0 * 256 + decVal p1) * 256 + decVal p2) * 256 + decVal p3 with hu
  have hulit : u < 4294967296 := by omega
  have hnat : ipv4Nat s = u := by
    unfold ipv4Nat
    rw [hs]
    simp only [List.foldl]
    omega
  refine ⟨(ofUInt32_bounds u hulit).1, (ofUInt32_bounds u hulit).2, ?_⟩
  rw [ofUInt32_emod u hulit, hnat]

/-- C2: formatting the parsed value of a valid (canonical) IPv4 string
gives back exactly the input string. -/
theorem claim_C2_roundtrip_ipv4 (s : String) (v : Int) (h : isIPv4 s = true)
    (hv : fromIPv4 s = Except.ok v) : toIPv4 v = s := by
  obtain ⟨p0, p1, p2, p3, hs, ho0, ho1, ho2, ho3⟩ := isIPv4_unpack s h
  obtain ⟨hn0, hd0, hb0, hc0⟩ := isOctet_unpack p0 ho0
  obtain ⟨hn1, hd1, hb1, hc1⟩ := isOctet_unpack p1 ho1
  obtain ⟨hn2, hd2, hb2, hc2⟩ := isOctet_unpack p2 ho2
  obtain ⟨hn3, hd3, hb3, hc3⟩ := isOctet_unpack p3 ho3
  rw [fromIPv4_of_valid s h p0 p1 p2 p3 hs hb0 hb1 hb2 hb3] at hv
  injection hv with hveq
  subst hveq
  have hu : ((decVal p0 * 256 + decVal p1) * 256 + decVal p2) * 256 + decVal p3
      < 4294967296 := by omega
  rw [toIPv4_ofUInt32 _ hu]
  rw [show (((decVal p0 * 256 + decVal p1) * 256 + decVal p2) * 256 + decVal p3)
        / 2 ^ 24 % 256 = decVal p0 by omega,
      show (((decVal p0 * 256 + decVal p1) * 256 + decVal p2) * 256 + decVal p3)
        / 2 ^ 16 % 256 = decVal p1 by omega,
      show (((decVal p0 * 256 + decVal p1) * 256 + decVal p2) * 256 + decVal p3)
        / 2 ^ 8 % 256 = decVal p2 by omega,
      show (((decVal p0 * 256 + decVal p1) * 256 + decVal p2) * 256 + decVal p3)
        / 2 ^ 0 % 256 = decVal p3 by omega]
  rw [natToDec_decVal p0 hn0 hd0 hc0, natToDec_decVal p1 hn1 hd1 hc1,
    natToDec_decVal p2 hn2 hd2 hc2, natToDec_decVal p3 hn3 hd3 hc3]
  rw [← hs, joinSep_splitCh, String_mk_data]

/-- C2 witness at `"1.2.3.4"`. -/
theorem claim_C2_witness : toIPv4 16909060 = "1.2.3.4" :=
  claim_C2_roundtrip_ipv4 "1.2.3.4" 16909060 rfl rfl

/-- C1 amended-claim witness at `"128.0.0.0"`. -/
theorem claim_C1_amended_witness :
    -2147483648 ≤ (-2147483648 : Int) ∧ (-2147483648 : Int) < 2147483648 ∧
      (-2147483648 : Int) % 4294967296 = (ipv4Nat "128.0.0.0" : Int) :=
  claim_C1_amended "128.0.0.0" (-2147483648) rfl rfl

/-- C8: `toIPv4` is total — every integer input yields a four-part dotted
string — and at the 32-bit boundaries it produces `"0.0.0.0"` and
`"255.255.255.255"`. -/
theorem claim_C8_toIPv4_total :
    toIPv4 0 = "0.0.0.0" ∧ toIPv4 4294967295 = "255.255.255.255" ∧
      ∀ v : Int, (splitCh '.' (toIPv4 v).data).length = 4 := by
  refine ⟨rfl, rfl, ?_⟩
  intro v
  rw [splitCh_toIPv4 v]
  rfl

/-- Parsing the formatted rendering of four byte values. -/
theorem ipv4_format_parse (b0 b1 b2 b3 : Nat) (h0 : b0 ≤ 255) (h1 : b1 ≤ 255)
    (h2 : b2 ≤ 255) (h3 : b3 ≤ 255) :
    fromIPv4 (String.mk (joinSep '.'
        [natToDec b0, natToDec b1, natToDec b2, natToDec b3])) =
      Except.ok (ofUInt32 (((b0 * 256 + b1) * 256 + b2) * 256 + b3)) := by
  have hsplit : splitCh '.' (String.mk (joinSep '.'
      [natToDec b0, natToDec b1, natToDec b2, natToDec b3])).data =
      [natToDec b0, natToDec b1, natToDec b2, natToDec b3] := by
    apply splitCh_joinSep _ _ (by simp)
    intro p hp
    have hp' : p = natToDec b0 ∨ p = natToDec b1 ∨ p = natToDec b2 ∨ p = natToDec b3 := by
      simpa using hp
    rcases hp' with h | h | h | h <;> (subst h; exact natToDec_not_dot _)
  have hvalid : isIPv4 (String.mk (joinSep '.'
      [natToDec b0, natToDec b1, natToDec b2, natToDec b3])) = true := by
    simp only [isIPv4, hsplit, Bool.and_eq_true, decide_eq_true_eq, List.all_eq_true]
    refine ⟨rfl, ?_⟩
    intro p hp
    have hp' : p = natToDec b0 ∨ p = natToDec b1 ∨ p = natToDec b2 ∨ p = natToDec b3 := by
      simpa using hp
    rcases hp' with h | h | h | h <;> subst h
    · exact isOctet_natToDec b0 h0
    · exact isOctet_natToDec b1 h1
    · exact isOctet_natToDec b2 h2
    · exact isOctet_natToDec b3 h3
  rw [fromIPv4_of_valid _ hvalid _ _ _ _ hsplit
    (by rw [decVal_natToDec]; exact h0) (by rw [decVal_natToDec]; exact h1)
    (by rw [decVal_natToDec]; exact h2) (by rw [decVal_natToDec]; exact h3)]
  rw [decVal_natToDec, decVal_natToDec, decVal_natToDec, decVal_natToDec]

/-- C9: IPv4 formatting is idempotent through a parse: for every 32-bit
unsigned `v`, `fromIPv4 (toIPv4 v)` succeeds and formatting its result
gives exactly `toIPv4 v` again. -/
theorem claim_C9_idempotent_format (v : Int) (hlo : 0 ≤ v) (hhi : v < 4294967296) :
    ∃ w, fromIPv4 (toIPv4 v) = Except.ok w ∧ toIPv4 w = toIPv4 v := by
  obtain ⟨u, rfl⟩ : ∃ u : Nat, v = (u : Int) := ⟨v.toNat, by omega⟩
  have hu : u < 4294967296 := by omega
  have hcongr : toIPv4 (u : Int) = toIPv4 (ofUInt32 u) :=
    toIPv4_congr _ _ (by rw [toUInt32n_natCast u hu, toUInt32n_ofUInt32 u hu])
  rw [hcongr, toIPv4_ofUInt32 u hu]
  refine ⟨ofUInt32 u, ?_, toIPv4_ofUInt32 u hu⟩
  rw [show u / 2 ^ 0 % 256 = u % 256 by norm_num]
  rw [ipv4_format_parse _ _ _ _ (by omega) (by omega) (by omega) (by omega)]
  congr 2
  omega

/-- C9 witness at `v = 4294967295`. -/
theorem claim_C9_witness :
    ∃ w, fromIPv4 (toIPv4 4294967295) = Except.ok w ∧
      toIPv4 w = toIPv4 4294967295 :=
  claim_C9_idempotent_format 4294967295 (by decide) (by decide)

/-- The error behaviour of the two parse operations: they fail with the
fixed per-family message exactly when the modelled validity predicate
rejects, and succeed whenever it accepts. -/
theorem parse_error_contract (s : String) :
    ((fromIPv4 s).isOk = isIPv4 s) ∧ ((fromIPv6 s).isOk = isIPv6 s) ∧
    (isIPv4 s = false → fromIPv4 s = Except.error "str should be a valid IPv4 address.") ∧
    (isIPv6 s = false → fromIPv6 s = Except.error "str should be a valid IPv6 address.") := by
  refine ⟨?_, ?_, ?_, ?_⟩
  · by_cases h : isIPv4 s = true
    · rw [h]
      unfold fromIPv4
      rw [if_pos h]
      cases hm : (splitCh '.' s.data).map (fun p => (decVal p : Int)) with
      | nil => rfl
      | cons x xs => rfl
    · have h' : isIPv4 s = false := by revert h; cases isIPv4 s <;> simp
      rw [h']
      unfold fromIPv4
      rw [if_neg (by simp [h'])]
      rfl
  · by_cases h : isIPv6 s = true
    · rw [h]
      unfold fromIPv6
      rw [if_pos h]
      rfl
    · have h' : isIPv6 s = false := by revert h; cases isIPv6 s <;> simp
      rw [h']
      unfold fromIPv6
      rw [if_neg (by simp [h'])]
      rfl
  · intro h'
    unfold fromIPv4
    rw [if_neg (by simp [h'])]
  · intro h'
    unfold fromIPv6
    rw [if_neg (by simp [h'])]

/-! ### IPv6: characterizing the zero-run replacement -/

/-- Invariant satisfied by every hextet string `toIPv6` renders: nonempty,
colon-free, and `'0'`-headed only for the zero segment itself. -/
def SegOK (p : List Char) : Prop :=
  p ≠ [] ∧ (∀ c ∈ p, c ≠ ':') ∧ (p.headI = '0' → p = ['0'])

/-- The tail of a colon-join: empty for no segments, otherwise a colon
followed by the join. -/
def colonPre : List (List Char) → List Char
  | [] => []
  | p :: ps => ':' :: joinSep ':' (p :: ps)

theorem joinSep_eq_colonPre (p : List Char) (ps : List (List Char)) :
    joinSep ':' (p :: ps) = p ++ colonPre ps := by
  cases ps with
  | nil => simp [joinSep_single, colonPre]
  | cons q qs => rfl

theorem segOK_head (p : List Char) (hp : SegOK p) (hz : p ≠ ['0']) :
    ∃ c0 p', p = c0 :: p' ∧ c0 ≠ '0' ∧ c0 ≠ ':' := by
  obtain ⟨hne, hcol, hzero⟩ := hp
  cases p with
  | nil => exact absurd rfl hne
  | cons c0 p' =>
    refine ⟨c0, p', rfl, ?_, hcol c0 (by simp)⟩
    intro h0
    exact hz (hzero (by simpa using h0))

theorem colonPre_cons (p : List Char) (ps : List (List Char)) :
    colonPre (p :: ps) = ':' :: joinSep ':' (p :: ps) := rfl

theorem matchTail_cons_cons (c2 : Char) (rest2 : List Char) :
    matchTail (':' :: c2 :: rest2) =
      if c2 = '0' then
        match matchTail rest2 with
        | some r => some r
        | none => some (c2 :: rest2)
      else some (c2 :: rest2) := rfl

theorem matchZeroRun_cons (c : Char) (rest : List Char) :
    matchZeroRun (c :: rest) = if c = '0' then matchTail rest else none := rfl

theorem goZR_cons_ne (c : Char) (rest : List Char) (hc : c ≠ ':') :
    goZR (c :: rest) = c :: goZR rest := by
  conv_lhs => unfold goZR
  rw [if_neg hc]

theorem goZR_colon_some (rest r : List Char) (h : matchZeroRun rest = some r) :
    goZR (':' :: rest) = ':' :: ':' :: r := by
  conv_lhs => unfold goZR
  rw [if_pos rfl, h]

theorem goZR_colon_none (rest : List Char) (h : matchZeroRun rest = none) :
    goZR (':' :: rest) = ':' :: goZR rest := by
  conv_lhs => unfold goZR
  rw [if_pos rfl, h]

theorem replaceZeroRun_some (l r : List Char) (h : matchZeroRun l = some r) :
    replaceZeroRun l = ':' :: ':' :: r := by
  unfold replaceZeroRun
  rw [h]

theorem replaceZeroRun_none_eq (l : List Char) (h : matchZeroRun l = none) :
    replaceZeroRun l = goZR l := by
  unfold replaceZeroRun
  rw [h]

/-- The matcher for `(:0)*(:|$)` consumes exactly the remaining zero run
and the following colon (or end of string). -/
theorem matchTail_run : ∀ (k : Nat) (post : List (List Char)),
    (∀ p ∈ post, SegOK p) → (∀ q ∈ post.head?, q ≠ ['0']) →
    matchTail (colonPre (List.replicate k ['0'] ++ post)) = some (joinSep ':' post) := by
  intro k
  induction k with
  | zero =>
    intro post hpost hhead
    cases post with
    | nil => rfl
    | cons p ps =>
      have hp : SegOK p := hpost p (by simp)
      have hpz : p ≠ ['0'] := hhead p (by simp)
      obtain ⟨c0, p', hpeq, hc0, hc0c⟩ := segOK_head p hp hpz
      rw [List.replicate, List.nil_append, colonPre_cons, joinSep_eq_colonPre, hpeq,
        List.cons_append, matchTail_cons_cons, if_neg hc0]
  | succ k ih =>
    intro post hpost hhead
    rw [show List.replicate (k + 1) ['0'] ++ post
        = ['0'] :: (List.replicate k ['0'] ++ post) by simp [List.replicate_succ]]
    rw [colonPre_cons, joinSep_eq_colonPre, List.singleton_append, matchTail_cons_cons,
      if_pos rfl, ih post hpost hhead]

/-- The zero-run matcher succeeds at the start of a zero run. -/
theorem matchZeroRun_run (k : Nat) (hk : 1 ≤ k) (post : List (List Char))
    (hpost : ∀ p ∈ post, SegOK p) (hhead : ∀ q ∈ post.head?, q ≠ ['0']) :
    matchZeroRun (joinSep ':' (List.replicate k ['0'] ++ post)) =
      some (joinSep ':' post) := by
  obtain ⟨k', rfl⟩ : ∃ k', k = k' + 1 := ⟨k - 1, by omega⟩
  rw [show List.replicate (k' + 1) ['0'] ++ post
      = ['0'] :: (List.replicate k' ['0'] ++ post) by simp [List.replicate_succ]]
  rw [joinSep_eq_colonPre, List.singleton_append, matchZeroRun_cons, if_pos rfl]
  exact matchTail_run k' post hpost hhead

/-- The zero-run matcher fails at the start of a non-zero segment. -/
theorem matchZeroRun_none (L : List (List Char))
    (hL : ∀ p ∈ L, SegOK p) (hhead : ∀ q ∈ L.head?, q ≠ ['0']) :
    matchZeroRun (joinSep ':' L) = none := by
  cases L with
  | nil => rfl
  | cons p ps =>
    have hp : SegOK p := hL p (by simp)
    have hpz : p ≠ ['0'] := hhead p (by simp)
    obtain ⟨c0, p', hpeq, hc0, hc0c⟩ := segOK_head p hp hpz
    rw [joinSep_eq_colonPre, hpeq, List.cons_append, matchZeroRun_cons, if_neg hc0]

theorem goZR_seg (p l : List Char) (hp : ∀ c ∈ p, c ≠ ':') :
    goZR (p ++ l) = p ++ goZR l := by
  induction p with
  | nil => simp
  | cons c cs ih =>
    have hc : c ≠ ':' := hp c (by simp)
    rw [List.cons_append, goZR_cons_ne c _ hc, ih (fun d hd => hp d (by simp [hd]))]
    rfl

/-- Scanning inside the leading non-zero segments finds the first zero run
and replaces it (with its surrounding colons) by `"::"`. -/
theorem goZR_found : ∀ (pre : List (List Char)) (k : Nat) (post : List (List Char)),
    pre ≠ [] → 1 ≤ k →
    (∀ p ∈ pre, SegOK p) → (∀ p ∈ pre, p ≠ ['0']) →
    (∀ p ∈ post, SegOK p) → (∀ q ∈ post.head?, q ≠ ['0']) →
    goZR (joinSep ':' (pre ++ List.replicate k ['0'] ++ post)) =
      joinSep ':' pre ++ ':' :: ':' :: joinSep ':' post := by
  intro pre
  induction pre with
  | nil => intro k post hne; exact absurd rfl hne
  | cons p pre' ih =>
    intro k post _ hk hpre hprez hpost hhead
    have hp : SegOK p := hpre p (by simp)
    rw [List.append_assoc, List.cons_append, joinSep_eq_colonPre]
    rw [goZR_seg p _ hp.2.1]
    have hrest_ne : pre' ++ (List.replicate k ['0'] ++ post) ≠ [] := by
      intro h
      have := congrArg List.length h
      simp [List.length_append, List.length_replicate] at this
      omega
    obtain ⟨m, ms, hms⟩ : ∃ m ms, pre' ++ (List.replicate k ['0'] ++ post) = m :: ms := by
      cases h : pre' ++ (List.replicate k ['0'] ++ post) with
      | nil => exact absurd h hrest_ne
      | cons m ms => exact ⟨m, ms, rfl⟩
    rw [show colonPre (pre' ++ (List.replicate k ['0'] ++ post))
        = ':' :: joinSep ':' (pre' ++ (List.replicate k ['0'] ++ post)) by
      rw [hms, colonPre_cons]]
    cases pre' with
    | nil =>
      rw [List.nil_append]
      rw [goZR_colon_some _ _ (matchZeroRun_run k hk post hpost hhead)]
      rw [joinSep_single]
    | cons q qs =>
      have hqz : ∀ r ∈ (q :: qs : List (List Char)), r ≠ ['0'] :=
        fun r hr => hprez r (by simp [hr])
      have hmz : matchZeroRun (joinSep ':'
          ((q :: qs) ++ (List.replicate k ['0'] ++ post))) = none := by
        have hq : SegOK q := hpre q (by simp)
        obtain ⟨c0, q', hqeq, hc0, _⟩ := segOK_head q hq (hqz q (by simp))
        rw [List.cons_append, joinSep_eq_colonPre, hqeq, List.cons_append,
          matchZeroRun_cons, if_neg hc0]
      rw [goZR_colon_none _ hmz]
      have ih' := ih k post (by simp) hk
        (fun r hr => hpre r (by simp [hr])) hqz hpost hhead
      rw [← List.append_assoc]
      rw [ih', joinSep_cons]
      simp

/-- No zero segment anywhere: the scan leaves the string unchanged. -/
theorem goZR_id : ∀ (L : List (List Char)),
    (∀ p ∈ L, SegOK p) → (∀ p ∈ L, p ≠ ['0']) →
    goZR (joinSep ':' L) = joinSep ':' L := by
  intro L
  induction L with
  | nil => intro _ _; rfl
  | cons p ps ih =>
    intro hL hLz
    have hp : SegOK p := hL p (by simp)
    rw [joinSep_eq_colonPre, goZR_seg p _ hp.2.1]
    cases ps with
    | nil => rfl
    | cons q qs =>
      rw [colonPre_cons]
      have hmz : matchZeroRun (joinSep ':' (q :: qs)) = none := by
        apply matchZeroRun_none _ (fun r hr => hL r (by simp [hr]))
        intro r hr
        simp at hr
        subst hr
        exact hLz q (by simp)
      rw [goZR_colon_none _ hmz]
      rw [ih (fun r hr => hL r (by simp [hr])) (fun r hr => hLz r (by simp [hr]))]

/-- The first `replace` of `toIPv6`: on a join of well-formed segments
containing a zero run, the first run (with its bounding colons) becomes
`"::"`. -/
theorem replaceZeroRun_found (pre : List (List Char)) (k : Nat)
    (post : List (List Char)) (hk : 1 ≤ k)
    (hpre : ∀ p ∈ pre, SegOK p) (hprez : ∀ p ∈ pre, p ≠ ['0'])
    (hpost : ∀ p ∈ post, SegOK p) (hhead : ∀ q ∈ post.head?, q ≠ ['0']) :
    replaceZeroRun (joinSep ':' (pre ++ List.replicate k ['0'] ++ post)) =
      joinSep ':' pre ++ ':' :: ':' :: joinSep ':' post := by
  cases pre with
  | nil =>
    rw [List.nil_append]
    rw [replaceZeroRun_some _ _ (matchZeroRun_run k hk post hpost hhead)]
    rfl
  | cons p pre' =>
    have hmz : matchZeroRun (joinSep ':'
        ((p :: pre') ++ List.replicate k ['0'] ++ post)) = none := by
      have hp : SegOK p := hpre p (by simp)
      obtain ⟨c0, p', hpeq, hc0, _⟩ := segOK_head p hp (hprez p (by simp))
      rw [List.append_assoc, List.cons_append, joinSep_eq_colonPre, hpeq,
        List.cons_append, matchZeroRun_cons, if_neg hc0]
    rw [replaceZeroRun_none_eq _ hmz]
    exact goZR_found (p :: pre') k post (by simp) hk hpre hprez hpost hhead

/-- The first `replace` of `toIPv6` is the identity when no segment is the
zero segment. -/
theorem replaceZeroRun_id (L : List (List Char))
    (hL : ∀ p ∈ L, SegOK p) (hLz : ∀ p ∈ L, p ≠ ['0']) :
    replaceZeroRun (joinSep ':' L) = joinSep ':' L := by
  rw [replaceZeroRun_none_eq _ (matchZeroRun_none L hL (by
    intro q hq
    cases L with
    | nil => simp at hq
    | cons p ps =>
      simp at hq
      subst hq
      exact hLz p (by simp)))]
  exact goZR_id L hL hLz

/-! ### IPv6: the second replace (colon-run collapse) is inert here -/

theorem segOK_head_colon (p : List Char) (hp : SegOK p) :
    ∃ c0 p', p = c0 :: p' ∧ c0 ≠ ':' := by
  obtain ⟨hne, hcol, _⟩ := hp
  cases p with
  | nil => exact absurd rfl hne
  | cons c0 p' => exact ⟨c0, p', rfl, hcol c0 (by simp)⟩

theorem collapse3_cons_ne (c : Char) (rest : List Char) (hc : c ≠ ':') :
    collapse3 (c :: rest) = c :: collapse3 rest := by
  conv_lhs => unfold collapse3
  rw [if_neg (by intro h; exact hc h.1)]

theorem collapse3_colon_short (rest : List Char)
    (h : (rest.takeWhile (fun d => decide (d = ':'))).length < 2) :
    collapse3 (':' :: rest) = ':' :: collapse3 rest := by
  conv_lhs => unfold collapse3
  rw [if_neg (by intro hx; omega)]

theorem collapse3_seg (p l : List Char) (hp : ∀ c ∈ p, c ≠ ':') :
    collapse3 (p ++ l) = p ++ collapse3 l := by
  induction p with
  | nil => simp
  | cons c cs ih =>
    have hc : c ≠ ':' := hp c (by simp)
    rw [List.cons_append, collapse3_cons_ne c _ hc, ih (fun d hd => hp d (by simp [hd]))]
    rfl

/-- The join of well-formed segments has no colon run at all, so the
second replace leaves it unchanged. -/
theorem collapse3_join : ∀ (L : List (List Char)), (∀ p ∈ L, SegOK p) →
    collapse3 (joinSep ':' L) = joinSep ':' L := by
  intro L
  induction L with
  | nil => intro _; rfl
  | cons p ps ih =>
    intro hL
    have hp : SegOK p := hL p (by simp)
    rw [joinSep_eq_colonPre, collapse3_seg p _ hp.2.1]
    cases ps with
    | nil => rfl
    | cons q qs =>
      rw [colonPre_cons]
      obtain ⟨c0, q', hqeq, hc0⟩ := segOK_head_colon q (hL q (by simp))
      have hshort : ((joinSep ':' (q :: qs)).takeWhile (fun d => decide (d = ':'))).length < 2 := by
        rw [joinSep_eq_colonPre, hqeq, List.cons_append,
          List.takeWhile_cons_of_neg (by simpa using hc0)]
        simp
      rw [collapse3_colon_short _ hshort, ih (fun r hr => hL r (by simp [hr]))]

/-- A `"::"` followed by the join of well-formed segments contains no run
of three or more colons. -/
theorem collapse3_dcolon (post : List (List Char)) (hpost : ∀ p ∈ post, SegOK p) :
    collapse3 (':' :: ':' :: joinSep ':' post) = ':' :: ':' :: joinSep ':' post := by
  have hpostTail : ((':' :: joinSep ':' post).takeWhile (fun d => decide (d = ':'))).length < 2 := by
    rw [List.takeWhile_cons_of_pos (by simp)]
    cases post with
    | nil => simp [joinSep_nil]
    | cons q qs =>
      obtain ⟨c0, q', hqeq, hc0⟩ := segOK_head_colon q (hpost q (by simp))
      rw [joinSep_eq_colonPre, hqeq, List.cons_append,
        List.takeWhile_cons_of_neg (by simpa using hc0)]
      simp
  rw [collapse3_colon_short _ hpostTail]
  have hshort2 : ((joinSep ':' post).takeWhile (fun d => decide (d = ':'))).length < 2 := by
    cases post with
    | nil => simp [joinSep_nil]
    | cons q qs =>
      obtain ⟨c0, q', hqeq, hc0⟩ := segOK_head_colon q (hpost q (by simp))
      rw [joinSep_eq_colonPre, hqeq, List.cons_append,
        List.takeWhile_cons_of_neg (by simpa using hc0)]
      simp
  rw [collapse3_colon_short _ hshort2, collapse3_join post hpost]

/-- The collapsed form produced by the first replace is a fixed point of
the second replace. -/
theorem collapse3_collapsed : ∀ (pre post : List (List Char)),
    (∀ p ∈ pre, SegOK p) → (∀ p ∈ post, SegOK p) →
    collapse3 (joinSep ':' pre ++ ':' :: ':' :: joinSep ':' post) =
      joinSep ':' pre ++ ':' :: ':' :: joinSep ':' post := by
  intro pre
  induction pre with
  | nil =>
    intro post _ hpost
    rw [joinSep_nil, List.nil_append]
    exact collapse3_dcolon post hpost
  | cons p pre' ih =>
    intro post hpre hpost
    have hp : SegOK p := hpre p (by simp)
    rw [joinSep_eq_colonPre, List.append_assoc, collapse3_seg p _ hp.2.1]
    cases pre' with
    | nil =>
      rw [show colonPre ([] : List (List Char)) = [] from rfl, List.nil_append]
      rw [collapse3_dcolon post hpost]
    | cons q qs =>
      rw [colonPre_cons, List.cons_append]
      obtain ⟨c0, q', hqeq, hc0⟩ := segOK_head_colon q (hpre q (by simp))
      have hshort : ((joinSep ':' (q :: qs) ++ ':' :: ':' :: joinSep ':' post).takeWhile
          (fun d => decide (d = ':'))).length < 2 := by
        rw [joinSep_eq_colonPre, hqeq, List.cons_append, List.cons_append,
          List.takeWhile_cons_of_neg (by simpa using hc0)]
        simp
      rw [collapse3_colon_short _ hshort]
      rw [ih post (fun r hr => hpre r (by simp [hr])) hpost]

/-! ### IPv6: the section list of `toIPv6` -/

theorem sections8_def (v : Nat) : sections8 v =
    [natToHex ((v >>> 112) &&& 65535), natToHex ((v >>> 96) &&& 65535),
     natToHex ((v >>> 80) &&& 65535), natToHex ((v >>> 64) &&& 65535),
     natToHex ((v >>> 48) &&& 65535), natToHex ((v >>> 32) &&& 65535),
     natToHex ((v >>> 16) &&& 65535), natToHex ((v >>> 0) &&& 65535)] := rfl

theorem shiftRight_and_mask (v k : Nat) :
    (v >>> k) &&& 65535 = v / 2 ^ k % 65536 := by
  rw [Nat.shiftRight_eq_div_pow]
  have h := Nat.and_pow_two_sub_one_eq_mod (v / 2 ^ k) 16
  norm_num at h
  exact h

theorem sections8_eq (v : Nat) : sections8 v =
    [natToHex (v / 2 ^ 112 % 65536), natToHex (v / 2 ^ 96 % 65536),
     natToHex (v / 2 ^ 80 % 65536), natToHex (v / 2 ^ 64 % 65536),
     natToHex (v / 2 ^ 48 % 65536), natToHex (v / 2 ^ 32 % 65536),
     natToHex (v / 2 ^ 16 % 65536), natToHex (v / 2 ^ 0 % 65536)] := by
  rw [sections8_def]
  simp only [shiftRight_and_mask]

theorem segOK_natToHex (n : Nat) : SegOK (natToHex n) := by
  refine ⟨natToHex_ne_nil n, ?_, ?_⟩
  · intro c hc
    exact isHexDigitCh_ne_colon c (natToHex_all_hexDigits n c hc)
  · exact natToHex_eq_zero_of_headI n

theorem sections8_all_segOK (v : Nat) : ∀ p ∈ sections8 v, SegOK p := by
  rw [sections8_def]
  intro p hp
  simp only [List.mem_cons, List.not_mem_nil, or_false] at hp
  rcases hp with h | h | h | h | h | h | h | h <;> (subst h; exact segOK_natToHex _)

/-- Decomposition of a section list around its first zero run. -/
theorem zero_run_decomp (L : List (List Char)) (hmem : ['0'] ∈ L) :
    ∃ pre k post, 1 ≤ k ∧
      L = pre ++ List.replicate k ['0'] ++ post ∧
      pre = L.takeWhile (fun p => decide (p ≠ ['0'])) ∧
      post = (L.dropWhile (fun p => decide (p ≠ ['0']))).dropWhile (fun p => decide (p = ['0'])) ∧
      (∀ p ∈ pre, p ≠ ['0']) ∧ (∀ q ∈ post.head?, q ≠ ['0']) := by
  have hsplitL := List.takeWhile_append_dropWhile (p := fun p => decide (p ≠ ['0'])) (l := L)
  have hrestne : L.dropWhile (fun p => decide (p ≠ ['0'])) ≠ [] := by
    intro h0
    rw [h0, List.append_nil] at hsplitL
    have := List.mem_takeWhile_imp (l := L) (p := fun p => decide (p ≠ ['0']))
      (by rw [hsplitL]; exact hmem)
    simp at this
  obtain ⟨r0, rest', hrest⟩ : ∃ r0 rest',
      L.dropWhile (fun p => decide (p ≠ ['0'])) = r0 :: rest' := by
    cases h : L.dropWhile (fun p => decide (p ≠ ['0'])) with
    | nil => exact absurd h hrestne
    | cons r0 rest' => exact ⟨r0, rest', rfl⟩
  have hr0 : r0 = ['0'] := by
    have h := List.head?_dropWhile_not (fun p => decide (p ≠ ['0'])) L
    rw [hrest] at h
    simpa using h
  subst hr0
  set rest := L.dropWhile (fun p => decide (p ≠ ['0'])) with hrestdef
  have hsplitR := List.takeWhile_append_dropWhile (p := fun p => decide (p = ['0'])) (l := rest)
  set zs := rest.takeWhile (fun p => decide (p = ['0'])) with hzs
  set post := rest.dropWhile (fun p => decide (p = ['0'])) with hpost
  have hzrep : zs = List.replicate zs.length ['0'] :=
    List.eq_replicate_of_mem (fun b hb => by
      have := List.mem_takeWhile_imp hb
      simpa using this)
  have hzlen : 1 ≤ zs.length := by
    rw [hzs, hrest, List.takeWhile_cons_of_pos (by simp)]
    simp
  refine ⟨L.takeWhile (fun p => decide (p ≠ ['0'])), zs.length, post, hzlen, ?_, rfl, rfl, ?_, ?_⟩
  · rw [List.append_assoc, ← hzrep, hsplitR, hsplitL]
  · intro p hp
    have := List.mem_takeWhile_imp hp
    simpa using this
  · intro q hq
    have h := List.head?_dropWhile_not (fun p => decide (p = ['0'])) rest
    rw [← hpost] at h
    cases hp : post.head? with
    | none => rw [hp] at hq; simp at hq
    | some x =>
      rw [hp] at h hq
      simp at h hq
      subst hq
      exact h

/-- Both replaces of `toIPv6`, on a section list with a zero run. -/
theorem toIPv6_format_zero_run (pre : List (List Char)) (k : Nat)
    (post : List (List Char)) (hk : 1 ≤ k)
    (hpre : ∀ p ∈ pre, SegOK p) (hprez : ∀ p ∈ pre, p ≠ ['0'])
    (hpost : ∀ p ∈ post, SegOK p) (hhead : ∀ q ∈ post.head?, q ≠ ['0']) :
    collapse3 (replaceZeroRun (joinSep ':' (pre ++ List.replicate k ['0'] ++ post))) =
      joinSep ':' pre ++ ':' :: ':' :: joinSep ':' post := by
  rw [replaceZeroRun_found pre k post hk hpre hprez hpost hhead]
  exact collapse3_collapsed pre post hpre hpost

/-- C5: `toIPv6` collapses exactly the *first* run of consecutive zero
segments (the maximal zero-free prefix stays, the first zero run with its
bounding colons becomes `"::"`, and everything after that run — including
any later, possibly longer zero runs — is rendered verbatim).  The witness
instantiates a value whose shorter zero run precedes a longer one. -/
theorem claim_C5_first_run_collapse (v : Nat) (hmem : ['0'] ∈ sections8 v) :
    toIPv6 v = String.mk
      (joinSep ':' ((sections8 v).takeWhile (fun p => decide (p ≠ ['0']))) ++
        ':' :: ':' ::
        joinSep ':' (((sections8 v).dropWhile (fun p => decide (p ≠ ['0']))).dropWhile
          (fun p => decide (p = ['0'])))) := by
  obtain ⟨pre, k, post, hk, hL, hpreeq, hposteq, hprez, hheadz⟩ := zero_run_decomp _ hmem
  have hallseg := sections8_all_segOK v
  have hpre : ∀ p ∈ pre, SegOK p := fun p hp =>
    hallseg p (by rw [hL]; exact List.mem_append_left _ (List.mem_append_left _ hp))
  have hpost : ∀ p ∈ post, SegOK p := fun p hp =>
    hallseg p (by rw [hL]; exact List.mem_append_right _ hp)
  unfold toIPv6
  rw [← hpreeq, ← hposteq, hL]
  rw [toIPv6_format_zero_run pre k post hk hpre hprez hpost hheadz]

/-- C5 witness: the value with section list `1,0,2,0,0,3,4,5` — a zero run
of length one before a zero run of length two — formats with the *first*
(shorter) run collapsed. -/
theorem claim_C5_witness :
    toIPv6 5192296860952679267759767563796485 = "1::2:0:0:3:4:5" :=
  (claim_C5_first_run_collapse 5192296860952679267759767563796485 (by decide)).trans rfl

/-- Both replaces are inert when no section is the zero segment. -/
theorem toIPv6_no_zero (v : Nat) (hmem : ['0'] ∉ sections8 v) :
    toIPv6 v = String.mk (joinSep ':' (sections8 v)) := by
  unfold toIPv6
  have hall := sections8_all_segOK v
  have hz : ∀ p ∈ sections8 v, p ≠ ['0'] := fun p hp he => hmem (he ▸ hp)
  rw [replaceZeroRun_id _ hall hz, collapse3_join _ hall]

/-! ### IPv6: parsing the canonical output back -/

theorem isHextet_natToHex (n : Nat) (h : n < 65536) : isHextet (natToHex n) = true := by
  simp only [isHextet, Bool.and_eq_true, decide_eq_true_eq, List.all_eq_true]
  refine ⟨⟨?_, ?_⟩, natToHex_all_hexDigits n⟩
  · have := natToHex_ne_nil n
    cases hx : natToHex n with
    | nil => exact absurd hx this
    | cons c cs => simp [hx]
  · exact natToHex_length_le 4 n (by omega)
      (by rw [show (16 : Nat) ^ 4 = 65536 by norm_num]; exact h)

theorem isHextet_ne_nil (p : List Char) (h : isHextet p = true) : p ≠ [] := by
  simp only [isHextet, Bool.and_eq_true, decide_eq_true_eq] at h
  intro h0
  subst h0
  simp at h

theorem isHextet_unpack (p : List Char) (h : isHextet p = true) :
    1 ≤ p.length ∧ p.length ≤ 4 ∧ ∀ c ∈ p, isHexDigitCh c = true := by
  simp only [isHextet, Bool.and_eq_true, decide_eq_true_eq, List.all_eq_true] at h
  tauto

/-- The hextets `toIPv6` renders are hextets in the predicate's sense. -/
theorem sections8_all_hextet (v : Nat) : ∀ p ∈ sections8 v, isHextet p = true := by
  rw [sections8_eq]
  intro p hp
  simp only [List.mem_cons, List.not_mem_nil, or_false] at hp
  rcases hp with h | h | h | h | h | h | h | h <;>
    (subst h; exact isHextet_natToHex _ (Nat.mod_lt _ (by omega)))

/-- The section list the collapsed string splits back into: the prefix
segments, an empty-piece run encoding the `"::"`, and the suffix
segments. -/
def collapsedParts (pre post : List (List Char)) : List (List Char) :=
  pre ++ ((if pre = [] then [[], []] else [[]]) ++ (if post = [] then [[]] else [])) ++ post

theorem joinSep_append (c : Char) : ∀ (A B : List (List Char)), A ≠ [] → B ≠ [] →
    joinSep c (A ++ B) = joinSep c A ++ c :: joinSep c B := by
  intro A
  induction A with
  | nil => intro B h; exact absurd rfl h
  | cons a A' ih =>
    intro B _ hB
    cases A' with
    | nil =>
      cases B with
      | nil => exact absurd rfl hB
      | cons b B' =>
        rw [List.singleton_append, joinSep_cons, joinSep_single]
    | cons a2 A'' =>
      rw [List.cons_append, List.cons_append, joinSep_cons, joinSep_cons,
        ← List.cons_append, ih B (by simp) hB]
      simp

theorem joinSep_collapsedParts (pre post : List (List Char)) :
    joinSep ':' (collapsedParts pre post) =
      joinSep ':' pre ++ ':' :: ':' :: joinSep ':' post := by
  by_cases hpre : pre = [] <;> by_cases hpost : post = []
  · subst hpre; subst hpost; rfl
  · subst hpre
    obtain ⟨q, qs, rfl⟩ : ∃ q qs, post = q :: qs := by
      cases post with
      | nil => exact absurd rfl hpost
      | cons q qs => exact ⟨q, qs, rfl⟩
    rfl
  · subst hpost
    have hm : collapsedParts pre [] = pre ++ [[], []] := by
      simp [collapsedParts, hpre]
    rw [hm, joinSep_append ':' pre [[], []] hpre (by simp)]
    rfl
  · obtain ⟨q, qs, rfl⟩ : ∃ q qs, post = q :: qs := by
      cases post with
      | nil => exact absurd rfl hpost
      | cons q qs => exact ⟨q, qs, rfl⟩
    have hm : collapsedParts pre (q :: qs) = pre ++ ([[]] ++ q :: qs) := by
      simp [collapsedParts, hpre]
    rw [hm, joinSep_append ':' pre ([[]] ++ q :: qs) hpre (by simp)]
    rfl

/-- Members of the middle (empty-piece) block of `collapsedParts`. -/
theorem collapsedParts_mid_mem (pre post : List (List Char)) (p : List Char)
    (hp : p ∈ (if pre = [] then [[], []] else [[]] : List (List Char)) ++
      (if post = [] then [[]] else [])) : p = [] := by
  rcases List.mem_append.mp hp with h | h
  · split at h <;> simp at h <;> exact h
  · split at h <;> simp at h
    exact h

theorem splitCh_collapsedParts (pre post : List (List Char))
    (hpre : ∀ p ∈ pre, ∀ c ∈ p, c ≠ ':') (hpost : ∀ p ∈ post, ∀ c ∈ p, c ≠ ':') :
    splitCh ':' (joinSep ':' (collapsedParts pre post)) = collapsedParts pre post := by
  apply splitCh_joinSep
  · intro h
    rw [collapsedParts] at h
    simp only [List.append_eq_nil] at h
    have h2 := h.1.2.1
    split at h2 <;> simp at h2
  · intro p hp
    simp only [collapsedParts] at hp
    rcases List.mem_append.mp hp with hp1 | hp1
    · rcases List.mem_append.mp hp1 with hp2 | hp2
      · exact hpre p hp2
      · rw [collapsedParts_mid_mem pre post p hp2]
        simp
    · exact hpost p hp1

theorem takeWhile_parts (pre mid post : List (List Char))
    (hpre : ∀ p ∈ pre, p ≠ []) (hmid : ∀ p ∈ mid, p = []) (hmidne : mid ≠ []) :
    (pre ++ mid ++ post).takeWhile (fun p => decide (p ≠ [])) = pre ∧
    (pre ++ mid ++ post).dropWhile (fun p => decide (p ≠ [])) = mid ++ post := by
  obtain ⟨m0, mid', rfl⟩ : ∃ m0 mid', mid = m0 :: mid' := by
    cases mid with
    | nil => exact absurd rfl hmidne
    | cons m0 mid' => exact ⟨m0, mid', rfl⟩
  have hm0 : m0 = [] := hmid m0 (by simp)
  subst hm0
  constructor
  · rw [List.append_assoc,
      List.takeWhile_append_of_pos (by intro a ha; simpa using hpre a ha),
      List.cons_append, List.takeWhile_cons_of_neg (by simp), List.append_nil]
  · rw [List.append_assoc,
      List.dropWhile_append_of_pos (by intro a ha; simpa using hpre a ha),
      List.cons_append, List.dropWhile_cons_of_neg (by simp), ← List.cons_append]

theorem takeWhile_mid (mid post : List (List Char))
    (hmid : ∀ p ∈ mid, p = []) (hpost : ∀ p ∈ post, p ≠ []) :
    (mid ++ post).takeWhile (fun p => decide (p = [])) = mid ∧
    (mid ++ post).dropWhile (fun p => decide (p = [])) = post := by
  constructor
  · rw [List.takeWhile_append_of_pos (by intro a ha; simpa using hmid a ha)]
    cases post with
    | nil => simp
    | cons q qs =>
      rw [List.takeWhile_cons_of_neg (by simpa using hpost q (by simp)), List.append_nil]
  · rw [List.dropWhile_append_of_pos (by intro a ha; simpa using hmid a ha)]
    cases post with
    | nil => simp
    | cons q qs =>
      rw [List.dropWhile_cons_of_neg (by simpa using hpost q (by simp))]

/-- The validity predicate accepts a segment list of the abbreviated
shape: hextets, one run of empty pieces of the right length, hextets. -/
theorem isIPv6Parts_shape (pre mid post : List (List Char))
    (hpre : ∀ p ∈ pre, isHextet p = true) (hpost : ∀ p ∈ post, isHextet p = true)
    (hmid : ∀ p ∈ mid, p = []) (hmidne : mid ≠ [])
    (hlen : pre.length + post.length ≤ 7)
    (hshape3 : pre = [] → post = [] → mid.length = 3)
    (hshape2a : pre = [] → post ≠ [] → mid.length = 2)
    (hshape2b : pre ≠ [] → post = [] → mid.length = 2)
    (hshape1 : pre ≠ [] → post ≠ [] → mid.length = 1) :
    isIPv6Parts (pre ++ mid ++ post) = true := by
  have hpren : ∀ p ∈ pre, p ≠ [] := fun p hp => isHextet_ne_nil p (hpre p hp)
  have hpostn : ∀ p ∈ post, p ≠ [] := fun p hp => isHextet_ne_nil p (hpost p hp)
  obtain ⟨htw, hdw⟩ := takeWhile_parts pre mid post hpren hmid hmidne
  obtain ⟨htw2, hdw2⟩ := takeWhile_mid mid post hmid hpostn
  have hmem0 : ([] : List Char) ∈ pre ++ mid ++ post := by
    obtain ⟨m0, mid', rfl⟩ : ∃ m0 mid', mid = m0 :: mid' := by
      cases mid with
      | nil => exact absurd rfl hmidne
      | cons m0 mid' => exact ⟨m0, mid', rfl⟩
    have hm0 : m0 = [] := hmid m0 (by simp)
    subst hm0
    exact List.mem_append_left _ (List.mem_append_right _ (by simp))
  have hallf : (pre ++ mid ++ post).all (fun p => decide (p ≠ [])) = false :=
    List.all_eq_false.mpr ⟨[], hmem0, by simp⟩
  rw [isIPv6Parts]
  rw [if_neg (by rw [hallf]; simp)]
  simp only [htw, hdw, htw2, hdw2]
  simp only [Bool.and_eq_true, List.all_eq_true, decide_eq_true_eq]
  refine ⟨⟨⟨hpre, hpost⟩, hlen⟩, ?_⟩
  by_cases hpe : pre = [] <;> by_cases hpo : post = []
  · rw [if_pos ⟨by simp [hpe], by simp [hpo]⟩]
    simp [hshape3 hpe hpo]
  · rw [if_neg (show ¬(pre.length = 0 ∧ post.length = 0) from
        fun h => hpo (List.length_eq_zero.mp h.2)),
      if_pos (Or.inl (by simp [hpe]))]
    simp [hshape2a hpe hpo]
  · rw [if_neg (show ¬(pre.length = 0 ∧ post.length = 0) from
        fun h => hpe (List.length_eq_zero.mp h.1)),
      if_pos (Or.inr (by simp [hpo]))]
    simp [hshape2b hpe hpo]
  · rw [if_neg (show ¬(pre.length = 0 ∧ post.length = 0) from
        fun h => hpe (List.length_eq_zero.mp h.1)),
      if_neg (show ¬(pre.length = 0 ∨ post.length = 0) by
        rintro (h | h)
        · exact hpe (List.length_eq_zero.mp h)
        · exact hpo (List.length_eq_zero.mp h))]
    simp [hshape1 hpe hpo]

/-- `expandSections` on an abbreviated-shape list: the first empty piece
is spliced out and replaced by `9 - length` zero segments. -/
theorem expandSections_parts (pre mid post : List (List Char))
    (hpre : ∀ p ∈ pre, p ≠ []) (hmid : ∀ p ∈ mid, p = []) (hmidne : mid ≠ [])
    (hlen : pre.length + mid.length + post.length ≤ 9) :
    expandSections (pre ++ mid ++ post) =
      pre ++ List.replicate (9 - (pre.length + mid.length + post.length)) ['0'] ++
        (mid.tail ++ post) := by
  obtain ⟨m0, mid', rfl⟩ : ∃ m0 mid', mid = m0 :: mid' := by
    cases mid with
    | nil => exact absurd rfl hmidne
    | cons m0 mid' => exact ⟨m0, mid', rfl⟩
  have hm0 : m0 = [] := hmid m0 (by simp)
  subst hm0
  have hmem0 : ([] : List Char) ∈ pre ++ ([] :: mid') ++ post :=
    List.mem_append_left _ (List.mem_append_right _ (by simp))
  have hany : (pre ++ ([] :: mid') ++ post).any (fun p => decide (p = [])) = true :=
    List.any_eq_true.mpr ⟨[], hmem0, by simp⟩
  have hfindpre : pre.findIdx (fun p => decide (p = [])) = pre.length :=
    List.findIdx_eq_length_of_false (fun x hx => by simpa using hpre x hx)
  have hA : (pre ++ ([] :: mid')).findIdx (fun p => decide (p = [])) = pre.length := by
    rw [List.findIdx_append, hfindpre, if_neg (lt_irrefl _)]
    simp [List.findIdx_cons]
  have hfind : ((pre ++ ([] :: mid')) ++ post).findIdx (fun p => decide (p = [])) =
      pre.length := by
    rw [List.findIdx_append, hA,
      if_pos (by simp only [List.length_append, List.length_cons]; omega)]
  have htake : List.take pre.length ((pre ++ ([] :: mid')) ++ post) = pre := by
    rw [List.append_assoc]
    exact List.take_left pre _
  have hdrop : List.drop (pre.length + 1) ((pre ++ ([] :: mid')) ++ post) = mid' ++ post := by
    rw [show (pre ++ ([] :: mid')) = (pre ++ [([] : List Char)]) ++ mid' by simp]
    rw [List.append_assoc]
    exact List.drop_left' (by simp)
  have hcount : ((8 : Int) - (((pre ++ ([] :: mid')) ++ post).length : Int) + 1).toNat =
      9 - (pre.length + ([] :: mid' : List (List Char)).length + post.length) := by
    simp only [List.length_append, List.length_cons]
    simp only [List.length_append, List.length_cons] at hlen
    omega
  unfold expandSections
  rw [if_pos hany]
  simp only [hfind, htake, hdrop, hcount]
  rfl

theorem ipv6SegVal_natToHex (n : Nat) : ipv6SegVal (natToHex n) = n := by
  unfold ipv6SegVal
  rw [if_neg (natToHex_ne_nil n),
    jsParseIntHex_of_all _ (natToHex_all_hexDigits n), hexVal_natToHex]

theorem ipv6SegVal_nil : ipv6SegVal [] = 0 := rfl

theorem ipv6SegVal_zero : ipv6SegVal ['0'] = 0 := rfl

/-- The fold of `fromIPv6` only depends on the parsed segment values. -/
theorem ipv6Fold_eq_foldl_map (ps : List (List Char)) :
    ipv6Fold ps = (ps.map ipv6SegVal).foldl (fun a n => a * 65536 + n) 0 :=
  (List.foldl_map _ _ _ _).symm

/-- The reconstruction identity: folding the eight 16-bit limbs of a
128-bit value yields the value. -/
theorem ipv6Fold_sections8 (v : Nat) (hv : v < 340282366920938463463374607431768211456) :
    ipv6Fold (sections8 v) = v := by
  rw [sections8_eq]
  unfold ipv6Fold
  simp only [List.foldl, ipv6SegVal_natToHex]
  omega

/-- Full-range parse-format identity, shared by the round-trip claims:
for every `v` in `[0, 2^128)` the modelled validity predicate accepts
`toIPv6 v` and `fromIPv6` recovers exactly `v` from it. -/
theorem ipv6_parse_format (v : Nat)
    (hv : v < 340282366920938463463374607431768211456) :
    isIPv6 (toIPv6 v) = true ∧ fromIPv6 (toIPv6 v) = Except.ok v := by
  by_cases hmem : ['0'] ∈ sections8 v
  · -- there is a zero run: the formatted string is abbreviated
    obtain ⟨pre, k, post, hk, hL, hpreeq, hposteq, hprez, hheadz⟩ :=
      zero_run_decomp _ hmem
    have hallseg := sections8_all_segOK v
    have hallhex := sections8_all_hextet v
    have hpreS : ∀ p ∈ pre, SegOK p := fun p hp =>
      hallseg p (by rw [hL]; exact List.mem_append_left _ (List.mem_append_left _ hp))
    have hpostS : ∀ p ∈ post, SegOK p := fun p hp =>
      hallseg p (by rw [hL]; exact List.mem_append_right _ hp)
    have hpreH : ∀ p ∈ pre, isHextet p = true := fun p hp =>
      hallhex p (by rw [hL]; exact List.mem_append_left _ (List.mem_append_left _ hp))
    have hpostH : ∀ p ∈ post, isHextet p = true := fun p hp =>
      hallhex p (by rw [hL]; exact List.mem_append_right _ hp)
    have h8 := congrArg List.length hL
    rw [sections8_def] at h8
    simp only [List.length_append, List.length_replicate, List.length_cons,
      List.length_nil] at h8
    have htov : toIPv6 v = String.mk (joinSep ':' pre ++ ':' :: ':' :: joinSep ':' post) := by
      unfold toIPv6
      rw [hL, toIPv6_format_zero_run pre k post hk hpreS hprez hpostS hheadz]
    have hsplit : splitCh ':' (toIPv6 v).data = collapsedParts pre post := by
      rw [htov]
      show splitCh ':' (joinSep ':' pre ++ ':' :: ':' :: joinSep ':' post) = _
      rw [← joinSep_collapsedParts]
      exact splitCh_collapsedParts pre post
        (fun p hp => (hpreS p hp).2.1) (fun p hp => (hpostS p hp).2.1)
    set mid := ((if pre = [] then [[], []] else [[]]) ++
      (if post = [] then [[]] else []) : List (List Char)) with hmid_def
    have hcp : collapsedParts pre post = pre ++ mid ++ post := rfl
    have hmidall : ∀ p ∈ mid, p = [] := collapsedParts_mid_mem pre post
    have hmidne : mid ≠ [] := by
      rw [hmid_def]
      split <;> simp
    have hml3 : pre = [] → post = [] → mid.length = 3 := by
      intro h1 h2; rw [hmid_def, if_pos h1, if_pos h2]; rfl
    have hml2a : pre = [] → post ≠ [] → mid.length = 2 := by
      intro h1 h2; rw [hmid_def, if_pos h1, if_neg h2]; rfl
    have hml2b : pre ≠ [] → post = [] → mid.length = 2 := by
      intro h1 h2; rw [hmid_def, if_neg h1, if_pos h2]; rfl
    have hml1 : pre ≠ [] → post ≠ [] → mid.length = 1 := by
      intro h1 h2; rw [hmid_def, if_neg h1, if_neg h2]; rfl
    have hlen7 : pre.length + post.length ≤ 7 := by omega
    have hlen9 : pre.length + mid.length + post.length ≤ 9 := by
      by_cases h1 : pre = [] <;> by_cases h2 : post = []
      · rw [hml3 h1 h2]; rw [h1, h2]; simp
      · rw [hml2a h1 h2, h1]; simp; omega
      · rw [hml2b h1 h2, h2]; simp; omega
      · rw [hml1 h1 h2]; omega
    have hvalid : isIPv6 (toIPv6 v) = true := by
      unfold isIPv6
      rw [hsplit, hcp]
      exact isIPv6Parts_shape pre mid post hpreH hpostH hmidall hmidne hlen7
        hml3 hml2a hml2b hml1
    refine ⟨hvalid, ?_⟩
    unfold fromIPv6
    rw [if_pos hvalid, hsplit, hcp]
    have hpren : ∀ p ∈ pre, p ≠ [] := fun p hp => (hpreS p hp).1
    rw [expandSections_parts pre mid post hpren hmidall hmidne hlen9]
    have hmlpos : 1 ≤ mid.length := by
      cases hmx : mid with
      | nil => exact absurd hmx hmidne
      | cons a b => simp [hmx]
    have hmt : (mid.tail).map ipv6SegVal = List.replicate (mid.length - 1) 0 := by
      have hz : ∀ x ∈ (mid.tail).map ipv6SegVal, x = 0 := by
        intro x hx
        obtain ⟨p, hp, rfl⟩ := List.mem_map.mp hx
        rw [hmidall p (List.mem_of_mem_tail hp)]
        rfl
      have hrep := List.eq_replicate_of_mem hz
      rw [List.length_map, List.length_tail] at hrep
      exact hrep
    have hmap : (pre ++ List.replicate (9 - (pre.length + mid.length + post.length)) ['0'] ++
        (mid.tail ++ post)).map ipv6SegVal = (sections8 v).map ipv6SegVal := by
      rw [hL]
      simp only [List.map_append, List.map_replicate, ipv6SegVal_zero, hmt]
      simp only [List.append_assoc]
      rw [← List.append_assoc (List.replicate (9 - (pre.length + mid.length + post.length))
        ((0 : Nat)))]
      rw [← List.replicate_add]
      have hkeq : 9 - (pre.length + mid.length + post.length) + (mid.length - 1) = k := by
        omega
      rw [hkeq]
    have hval : ipv6Fold (pre ++
        List.replicate (9 - (pre.length + mid.length + post.length)) ['0'] ++
        (mid.tail ++ post)) = v := by
      rw [ipv6Fold_eq_foldl_map, hmap, ← ipv6Fold_eq_foldl_map,
        ipv6Fold_sections8 v hv]
    rw [hval]
  · -- no zero segment: the formatted string is the plain 8-hextet join
    have htov := toIPv6_no_zero v hmem
    have hallseg := sections8_all_segOK v
    have hLsplit : splitCh ':' (toIPv6 v).data = sections8 v := by
      rw [htov]
      show splitCh ':' (joinSep ':' (sections8 v)) = _
      apply splitCh_joinSep
      · rw [sections8_def]; simp
      · intro p hp c hc
        exact (hallseg p hp).2.1 c hc
    have hvalid : isIPv6 (toIPv6 v) = true := by
      unfold isIPv6
      rw [hLsplit, isIPv6Parts]
      rw [if_pos (List.all_eq_true.mpr (fun p hp => by simpa using (hallseg p hp).1))]
      simp only [Bool.and_eq_true, decide_eq_true_eq, List.all_eq_true]
      exact ⟨by rw [sections8_def]; rfl, sections8_all_hextet v⟩
    refine ⟨hvalid, ?_⟩
    unfold fromIPv6
    rw [if_pos hvalid, hLsplit]
    have hanyf : (sections8 v).any (fun p => decide (p = [])) = false :=
      List.any_eq_false.mpr (fun p hp => by simpa using (hallseg p hp).1)
    have hexp : expandSections (sections8 v) = sections8 v := by
      unfold expandSections
      rw [if_neg (by rw [hanyf]; simp)]
    rw [hexp, ipv6Fold_sections8 v hv]

/-- C10: full-range IPv6 round trip.  For every `v` in `[0, 2^128)`, the
modelled external validity predicate accepts the string `toIPv6`
produces (the standing hypothesis of the implicit claim), and re-parsing
the formatted string with `fromIPv6` recovers exactly `v`. -/
theorem claim_C10_format_parse (v : Nat)
    (hv : v < 340282366920938463463374607431768211456) :
    isIPv6 (toIPv6 v) = true ∧ fromIPv6 (toIPv6 v) = Except.ok v :=
  ipv6_parse_format v hv

/-- C10 witness at `v = 1` (`toIPv6 1 = "::1"`). -/
theorem claim_C10_witness :
    isIPv6 (toIPv6 1) = true ∧ fromIPv6 (toIPv6 1) = Except.ok 1 :=
  claim_C10_format_parse 1 (by norm_num)

/-- Structural unpacking of validity for an abbreviated (``::``) address:
the split is hextets, one run of empty pieces, hextets, with the length
constraints of the grammar. -/
theorem isIPv6Parts_unpack_abbrev (ps : List (List Char))
    (h : isIPv6Parts ps = true)
    (hany : ¬ ps.all (fun p => decide (p ≠ [])) = true) :
    ∃ pre mid post,
      ps = pre ++ mid ++ post ∧
      pre = ps.takeWhile (fun p => decide (p ≠ [])) ∧
      post = (ps.dropWhile (fun p => decide (p ≠ []))).dropWhile (fun p => decide (p = [])) ∧
      (∀ p ∈ pre, isHextet p = true) ∧ (∀ p ∈ post, isHextet p = true) ∧
      (∀ p ∈ mid, p = []) ∧ mid ≠ [] ∧
      pre.length + post.length ≤ 7 ∧ 1 ≤ mid.length ∧ mid.length ≤ 3 ∧
      pre.length + mid.length + post.length ≤ 9 := by
  rw [isIPv6Parts, if_neg hany] at h
  simp only [Bool.and_eq_true, List.all_eq_true, decide_eq_true_eq] at h
  obtain ⟨⟨⟨hpreh, hposth⟩, hlen7⟩, hshape⟩ := h
  refine ⟨ps.takeWhile (fun p => decide (p ≠ [])),
    (ps.dropWhile (fun p => decide (p ≠ []))).takeWhile (fun p => decide (p = [])),
    (ps.dropWhile (fun p => decide (p ≠ []))).dropWhile (fun p => decide (p = [])),
    ?_, rfl, rfl, hpreh, hposth, ?_, ?_, hlen7, ?_⟩
  · rw [List.append_assoc, List.takeWhile_append_dropWhile,
      List.takeWhile_append_dropWhile]
  · intro p hp
    have := List.mem_takeWhile_imp hp
    simpa using this
  · -- the empty run is nonempty
    have hex : ∃ p ∈ ps, p = [] := by
      by_contra hc
      push_neg at hc
      exact hany (List.all_eq_true.mpr (fun p hp => by simpa using hc p hp))
    obtain ⟨p0, hp0mem, hp0⟩ := hex
    subst hp0
    have hrestne : ps.dropWhile (fun p => decide (p ≠ [])) ≠ [] := by
      intro h0
      have hsplitL := List.takeWhile_append_dropWhile
        (p := fun p => decide (p ≠ [])) (l := ps)
      rw [h0, List.append_nil] at hsplitL
      have := List.mem_takeWhile_imp (l := ps) (p := fun p => decide (p ≠ []))
        (by rw [hsplitL]; exact hp0mem)
      simp at this
    obtain ⟨r0, rest', hrest⟩ : ∃ r0 rest',
        ps.dropWhile (fun p => decide (p ≠ [])) = r0 :: rest' := by
      cases hx : ps.dropWhile (fun p => decide (p ≠ [])) with
      | nil => exact absurd hx hrestne
      | cons r0 rest' => exact ⟨r0, rest', rfl⟩
    have hr0 : r0 = [] := by
      have hh := List.head?_dropWhile_not (fun p => decide (p ≠ [])) ps
      rw [hrest] at hh
      simpa using hh
    subst hr0
    rw [hrest, List.takeWhile_cons_of_pos (by simp)]
    simp
  · -- the length bound: the shape conditional limits the run to ≤ 3
    by_cases h1 : (ps.takeWhile (fun p => decide (p ≠ []))).length = 0 <;>
      by_cases h2 : ((ps.dropWhile (fun p => decide (p ≠ []))).dropWhile
        (fun p => decide (p = []))).length = 0
    · rw [if_pos ⟨h1, h2⟩] at hshape
      simp only [decide_eq_true_eq] at hshape
      omega
    · rw [if_neg (by intro hx; exact h2 hx.2), if_pos (Or.inl h1)] at hshape
      simp only [decide_eq_true_eq] at hshape
      omega
    · rw [if_neg (by intro hx; exact h1 hx.1), if_pos (Or.inr h2)] at hshape
      simp only [decide_eq_true_eq] at hshape
      omega
    · rw [if_neg (by intro hx; exact h1 hx.1),
        if_neg (by rintro (hx | hx); exacts [h1 hx, h2 hx])] at hshape
      simp only [decide_eq_true_eq] at hshape
      omega

/-- Any segment of at most four characters parses below `2^16`. -/
theorem ipv6SegVal_lt (p : List Char) (hlen : p.length ≤ 4) :
    ipv6SegVal p < 65536 := by
  unfold ipv6SegVal
  split
  · decide
  · unfold jsParseIntHex
    have h1 : (p.takeWhile isHexDigitCh).length ≤ 4 :=
      le_trans (List.Sublist.length_le (List.takeWhile_sublist isHexDigitCh)) hlen
    have h2 := hexVal_lt (p.takeWhile isHexDigitCh)
      (fun c hc => List.mem_takeWhile_imp hc)
    calc hexVal (p.takeWhile isHexDigitCh)
        < 16 ^ (p.takeWhile isHexDigitCh).length := h2
      _ ≤ 16 ^ 4 := Nat.pow_le_pow_right (by omega) h1
      _ = 65536 := by norm_num

theorem foldl_val_lt : ∀ (ns : List Nat) (a : Nat), (∀ n ∈ ns, n < 65536) →
    ns.foldl (fun a n => a * 65536 + n) a < (a + 1) * 65536 ^ ns.length := by
  intro ns
  induction ns with
  | nil => intro a _; simp
  | cons n ns ih =>
    intro a hns
    show ns.foldl _ (a * 65536 + n) < _
    have hn : n < 65536 := hns n (by simp)
    have := ih (a * 65536 + n) (fun m hm => hns m (by simp [hm]))
    calc ns.foldl (fun a n => a * 65536 + n) (a * 65536 + n)
        < (a * 65536 + n + 1) * 65536 ^ ns.length := this
      _ ≤ ((a + 1) * 65536) * 65536 ^ ns.length := by
          apply Nat.mul_le_mul_right
          omega
      _ = (a + 1) * 65536 ^ (n :: ns).length := by
          rw [List.length_cons, pow_succ]
          ring

theorem ipv6Fold_lt (ps : List (List Char)) (h : ∀ p ∈ ps, ipv6SegVal p < 65536) :
    ipv6Fold ps < 65536 ^ ps.length := by
  rw [ipv6Fold_eq_foldl_map]
  have := foldl_val_lt (ps.map ipv6SegVal) 0 (by
    intro n hn
    obtain ⟨p, hp, rfl⟩ := List.mem_map.mp hn
    exact h p hp)
  simpa using this

/-- For every accepted input the expanded section list has exactly eight
segments, each parsing below `2^16`. -/
theorem fromIPv6_expanded_facts (s : String) (h6 : isIPv6 s = true) :
    (expandSections (splitCh ':' s.data)).length = 8 ∧
    (∀ p ∈ expandSections (splitCh ':' s.data), ipv6SegVal p < 65536) := by
  by_cases hall : (splitCh ':' s.data).all (fun p => decide (p ≠ [])) = true
  · have h := h6
    unfold isIPv6 at h
    rw [isIPv6Parts, if_pos hall] at h
    simp only [Bool.and_eq_true, decide_eq_true_eq, List.all_eq_true] at h
    have hanyf : (splitCh ':' s.data).any (fun p => decide (p = [])) = false :=
      List.any_eq_false.mpr (fun p hp => by
        have := List.all_eq_true.mp hall p hp
        simpa using this)
    have hexp : expandSections (splitCh ':' s.data) = splitCh ':' s.data := by
      unfold expandSections
      rw [if_neg (by rw [hanyf]; simp)]
    rw [hexp]
    exact ⟨h.1, fun p hp => ipv6SegVal_lt p (isHextet_unpack p (h.2 p hp)).2.1⟩
  · have h := h6
    unfold isIPv6 at h
    obtain ⟨pre, mid, post, hps, hpreeq, hposteq, hpreh, hposth, hmida, hmidne,
      hl7, hm1, hm3, hl9⟩ := isIPv6Parts_unpack_abbrev _ h hall
    have hpren : ∀ p ∈ pre, p ≠ [] := fun p hp => isHextet_ne_nil p (hpreh p hp)
    rw [hps, expandSections_parts pre mid post hpren hmida hmidne hl9]
    constructor
    · simp only [List.length_append, List.length_replicate, List.length_tail]
      omega
    · intro p hp
      simp only [List.mem_append] at hp
      rcases hp with (hp | hp) | hp
      · exact ipv6SegVal_lt p (isHextet_unpack p (hpreh p hp)).2.1
      · rw [List.eq_of_mem_replicate hp]; decide
      · rcases hp with hp' | hp'
        · rw [hmida p (List.mem_of_mem_tail hp')]; decide
        · exact ipv6SegVal_lt p (isHextet_unpack p (hposth p hp')).2.1

/-- C3: value-level IPv6 round trip.  Whenever `fromIPv6` accepts a string
and yields `w`, re-parsing the formatted output `toIPv6 w` yields the same
`w` (the textual form may differ; the value is stable). -/
theorem claim_C3_roundtrip_ipv6 (s : String) (w : Nat)
    (hw : fromIPv6 s = Except.ok w) :
    fromIPv6 (toIPv6 w) = Except.ok w := by
  have h6 : isIPv6 s = true := by
    by_contra h
    unfold fromIPv6 at hw
    rw [if_neg h] at hw
    simp at hw
  have hwv : w = ipv6Fold (expandSections (splitCh ':' s.data)) := by
    unfold fromIPv6 at hw
    rw [if_pos h6] at hw
    injection hw with h'
    exact h'.symm
  obtain ⟨hlen8, hseg⟩ := fromIPv6_expanded_facts s h6
  have hbound : w < 340282366920938463463374607431768211456 := by
    rw [hwv]
    have hlt := ipv6Fold_lt _ hseg
    rw [hlen8, show (65536 : Nat) ^ 8 = 340282366920938463463374607431768211456
      by norm_num] at hlt
    exact hlt
  exact (ipv6_parse_format w hbound).2

/-- C3 witness at `s = "2001:db8::1"`. -/
theorem claim_C3_witness :
    fromIPv6 (toIPv6 42540766411282592856903984951653826561) =
      Except.ok 42540766411282592856903984951653826561 :=
  claim_C3_roundtrip_ipv6 "2001:db8::1" _ rfl

/-- C4: on every accepted input containing a `::` abbreviation (an empty
piece in the colon split), the expansion step yields exactly eight
segments; their parsed values are the prefix hextets, then
`8 − (number of non-abbreviation segments)` zeros, then the suffix
hextets — including leading and trailing `::`.  In particular
`fromIPv6 "::" = 0` and `fromIPv6 "::1" = 1`. -/
theorem claim_C4_expansion (s : String) (h6 : isIPv6 s = true)
    (habbrev : (splitCh ':' s.data).any (fun p => decide (p = [])) = true) :
    ((expandSections (splitCh ':' s.data)).length = 8 ∧
     List.map ipv6SegVal (expandSections (splitCh ':' s.data)) =
       List.map ipv6SegVal ((splitCh ':' s.data).takeWhile (fun p => decide (p ≠ []))) ++
       List.replicate (8 - (((splitCh ':' s.data).takeWhile (fun p => decide (p ≠ []))).length +
         (((splitCh ':' s.data).dropWhile (fun p => decide (p ≠ []))).dropWhile
           (fun p => decide (p = []))).length)) 0 ++
       List.map ipv6SegVal (((splitCh ':' s.data).dropWhile (fun p => decide (p ≠ []))).dropWhile
         (fun p => decide (p = [])))) ∧
    fromIPv6 "::" = Except.ok 0 ∧ fromIPv6 "::1" = Except.ok 1 := by
  refine ⟨?_, rfl, rfl⟩
  have hall : ¬ (splitCh ':' s.data).all (fun p => decide (p ≠ [])) = true := by
    obtain ⟨p0, hp0, hp0e⟩ := List.any_eq_true.mp habbrev
    intro hc
    have := List.all_eq_true.mp hc p0 hp0
    simp at this hp0e
    exact this hp0e
  have h := h6
  unfold isIPv6 at h
  obtain ⟨pre, mid, post, hps, hpreeq, hposteq, hpreh, hposth, hmida, hmidne,
    hl7, hm1, hm3, hl9⟩ := isIPv6Parts_unpack_abbrev _ h hall
  have hpren : ∀ p ∈ pre, p ≠ [] := fun p hp => isHextet_ne_nil p (hpreh p hp)
  rw [← hpreeq, ← hposteq, hps,
    expandSections_parts pre mid post hpren hmida hmidne hl9]
  constructor
  · simp only [List.length_append, List.length_replicate, List.length_tail]
    omega
  · have hmt : (mid.tail).map ipv6SegVal = List.replicate (mid.length - 1) 0 := by
      have hz : ∀ x ∈ (mid.tail).map ipv6SegVal, x = 0 := by
        intro x hx
        obtain ⟨p, hp, rfl⟩ := List.mem_map.mp hx
        rw [hmida p (List.mem_of_mem_tail hp)]
        rfl
      have hrep := List.eq_replicate_of_mem hz
      rw [List.length_map, List.length_tail] at hrep
      exact hrep
    simp only [List.map_append, List.map_replicate, ipv6SegVal_zero, hmt]
    simp only [List.append_assoc]
    rw [← List.append_assoc (List.replicate (9 - (pre.length + mid.length + post.length))
      ((0 : Nat)))]
    rw [← List.replicate_add]
    have hkeq : 9 - (pre.length + mid.length + post.length) + (mid.length - 1) =
        8 - (pre.length + post.length) := by
      omega
    rw [hkeq]

/-- C4 witness at `"1::"` (trailing `::`). -/
theorem claim_C4_witness :
    (expandSections (splitCh ':' ("1::" : String).data)).length = 8 ∧
    fromIPv6 "::" = Except.ok 0 ∧ fromIPv6 "::1" = Except.ok 1 := by
  have h := claim_C4_expansion "1::" rfl rfl
  exact ⟨h.1.1, h.2.1, h.2.2⟩

/-- `toIPv4` always produces a nonempty (in fact four-part) string. -/
theorem toIPv4_data_ne_nil (v : Int) : (toIPv4 v).data ≠ [] := by
  intro h0
  have h4 := splitCh_toIPv4 v
  rw [h0] at h4
  simpa [splitCh] using congrArg List.length h4

/-- `toIPv6` always produces a nonempty string. -/
theorem toIPv6_data_ne_nil (v : Nat) : (toIPv6 v).data ≠ [] := by
  by_cases hmem : ['0'] ∈ sections8 v
  · obtain ⟨pre, k, post, hk, hL, hpreeq, hposteq, hprez, hheadz⟩ :=
      zero_run_decomp _ hmem
    have hallseg := sections8_all_segOK v
    have hpreS : ∀ p ∈ pre, SegOK p := fun p hp =>
      hallseg p (by rw [hL]; exact List.mem_append_left _ (List.mem_append_left _ hp))
    have hpostS : ∀ p ∈ post, SegOK p := fun p hp =>
      hallseg p (by rw [hL]; exact List.mem_append_right _ hp)
    have htov : toIPv6 v = String.mk (joinSep ':' pre ++ ':' :: ':' :: joinSep ':' post) := by
      unfold toIPv6
      rw [hL, toIPv6_format_zero_run pre k post hk hpreS hprez hpostS hheadz]
    rw [htov]
    show joinSep ':' pre ++ ':' :: ':' :: joinSep ':' post ≠ []
    simp
  · rw [toIPv6_no_zero v hmem]
    show joinSep ':' (sections8 v) ≠ []
    rw [sections8_def, joinSep_eq_colonPre, colonPre_cons]
    simp

/-- C6 counterexample: the error raised on rejection is one fixed message
per family — it names the family, but not the offending input.  Two
distinct invalid inputs produce literally identical errors (in both
families), so the error cannot name the input, refuting the claim's
"naming the family and input". -/
theorem claim_C6_counterexample :
    fromIPv4 "999.1.1.1" = Except.error "str should be a valid IPv4 address." ∧
    fromIPv4 "not-an-ip" = Except.error "str should be a valid IPv4 address." ∧
    fromIPv6 "999::::1" = Except.error "str should be a valid IPv6 address." ∧
    fromIPv6 "not-an-ip" = Except.error "str should be a valid IPv6 address." ∧
    ("999.1.1.1" : String) ≠ "not-an-ip" :=
  ⟨rfl, rfl, rfl, rfl, by decide⟩

/-- C6 (amended): `fromIPv4` and `fromIPv6` raise the single fixed error
of their family — its message names the family but not the input —
exactly when the modelled external validity predicate rejects the input,
succeed fully whenever it accepts, and produce no result besides the
error on failure; the format operations `toIPv4` and `toIPv6` are total
and never fail (every integer input yields a nonempty string). -/
theorem claim_C6_amended (s : String) :
    ((fromIPv4 s).isOk = isIPv4 s) ∧ ((fromIPv6 s).isOk = isIPv6 s) ∧
    (isIPv4 s = false → fromIPv4 s = Except.error "str should be a valid IPv4 address.") ∧
    (isIPv6 s = false → fromIPv6 s = Except.error "str should be a valid IPv6 address.") ∧
    (∀ v : Int, (toIPv4 v).data ≠ []) ∧ (∀ v : Nat, (toIPv6 v).data ≠ []) := by
  obtain ⟨h1, h2, h3, h4⟩ := parse_error_contract s
  exact ⟨h1, h2, h3, h4, toIPv4_data_ne_nil, toIPv6_data_ne_nil⟩

/-- C6 amended-claim witness: concrete reject cases for both families, a
concrete accept case, and a concrete format output. -/
theorem claim_C6_amended_witness :
    fromIPv4 "not-an-ip" = Except.error "str should be a valid IPv4 address." ∧
    fromIPv6 "not-an-ip" = Except.error "str should be a valid IPv6 address." ∧
    (fromIPv4 "1.2.3.4").isOk = isIPv4 "1.2.3.4" ∧
    (toIPv6 0).data ≠ [] := by
  have h := claim_C6_amended "not-an-ip"
  have h2 := claim_C6_amended "1.2.3.4"
  exact ⟨h.2.2.1 rfl, h.2.2.2.1 rfl, h2.1, h.2.2.2.2.2 0⟩

end Ip2d









